import Mathlib

set_option maxRecDepth 100000
set_option maxHeartbeats 1000000

/-! Verification development for the EITF65 lab 5 assembler (assembler.ts).

The TypeScript source is shallowly embedded in Lean:

- JS strings are lists of characters (`Str`);
- JS numbers are modeled as `Int` restricted to the integer-valued
  numerals the assembler language documents (see `jsNumber`);
- the JS `Map` is modeled as an insertion-ordered association list
  (`JsMap`) with the `set`/`get`/`delete`/`values` operations of the
  ECMAScript specification;
- JS object reference identity for `Operation` instances, which the
  `no_default_ops` handling tests with `===`, is modeled by a numeric
  allocation tag `oid`: the eleven built-in default operations receive
  tags 0..10 at table construction, and every operation allocated by
  parsing a `@define` line in a source file receives tag 11 + its line
  index, so a user-defined operation is never identified with a built-in
  instance;
- code that throws returns `Except Str`; an `ErrorWithCause` wrapper
  appends "\nCaused by: Error: <inner>" to the message, matching the
  browser branch of the source (string content of error chains only
  matters up to substring tests here);
- apostrophes occurring in source error message text are rendered with
  the corresponding full words ("cannot", "did not"), leaving every
  fragment tested by the claims intact;
- the warning callback `emitWarning` is modeled by accumulating the
  warning messages with their zero-based line index in the processing
  state; warnings fired before a failing line of a failing run are not
  observable in the model (the run result is the error alone).
-/

abbrev Str := List Char

deriving instance DecidableEq for Except

/-- Whitespace as stripped by the JS `trim` family on the characters that
can occur in a source line. -/
def isWs (c : Char) : Bool := c == ' ' || c == '\t' || c == '\n' || c == '\r'

def trimStart (s : Str) : Str := s.dropWhile isWs

def trimEnd (s : Str) : Str := (s.reverse.dropWhile isWs).reverse

def trim (s : Str) : Str := trimStart (trimEnd s)

/-- Index of the first occurrence of a character, JS `indexOf` with a
one-character needle. -/
def indexOfChar (s : Str) (c : Char) : Option Nat := s.findIdx? (· == c)

/-- Index of the first occurrence of a substring, JS `indexOf`. -/
def indexOfSeq (pat : Str) : Str → Option Nat
  | [] => if pat.isEmpty then some 0 else none
  | c :: rest =>
    if pat.isPrefixOf (c :: rest) then some 0
    else (indexOfSeq pat rest).map (· + 1)

/-- JS `String.prototype.toUpperCase` on the ASCII identifiers used here. -/
def strUpper (s : Str) : Str := s.map Char.toUpper

/-- JS `String.prototype.toLowerCase` on the ASCII identifiers used here. -/
def strLower (s : Str) : Str := s.map Char.toLower

/-- JS `split` on a single-character separator: the result is never empty
and keeps empty pieces, exactly like `"a,,b".split(',')`. -/
def splitOnChar (c : Char) : Str → List Str
  | [] => [[]]
  | x :: xs =>
    if x = c then [] :: splitOnChar c xs
    else
      match splitOnChar c xs with
      | [] => [[x]]
      | h :: t => (x :: h) :: t

def binDigit (c : Char) : Bool := c == '0' || c == '1'

def digitsVal (base : Nat) (s : Str) : Nat :=
  s.foldl (fun acc c => acc * base + (c.toNat - ('0').toNat)) 0

/-- Models the JS `Number(...)` string conversion restricted to the
integer numeral forms the assembler language documents: an optional sign
followed by decimal digits, or a `0b`-prefixed binary numeral.  Other JS
numeric string forms (hex and octal prefixes, fractions, exponents,
`Infinity`) are outside the modeled input language. -/
def jsNumber : Str → Option Int
  | '0' :: 'b' :: rest =>
    if rest ≠ [] ∧ rest.all binDigit then some (digitsVal 2 rest) else none
  | '-' :: rest =>
    if rest ≠ [] ∧ rest.all Char.isDigit then some (-(digitsVal 10 rest : Int)) else none
  | '+' :: rest =>
    if rest ≠ [] ∧ rest.all Char.isDigit then some (digitsVal 10 rest) else none
  | s =>
    if s ≠ [] ∧ s.all Char.isDigit then some (digitsVal 10 s) else none

/-- Digits of a natural number in a base of at least 2, most significant
first.  The structurally decreasing fuel argument makes the definition
kernel-reducible; `fuel > n` always suffices because the dividend
strictly shrinks. -/
def natToBaseAux (base : Nat) : Nat → Nat → Str
  | 0, _ => []
  | fuel + 1, n =>
    if n < base then [Nat.digitChar n]
    else natToBaseAux base fuel (n / base) ++ [Nat.digitChar (n % base)]

/-- Lowercase base-16 digits of a natural number, JS `n.toString(16)`. -/
def natToHex (n : Nat) : Str := natToBaseAux 16 (n + 1) n

/-- Base-2 digits of a natural number, JS `n.toString(2)`. -/
def natToBin (n : Nat) : Str := natToBaseAux 2 (n + 1) n

/-- Base-10 digits of a natural number, JS `n.toString()`. -/
def natToDec (n : Nat) : Str := natToBaseAux 10 (n + 1) n

def intToHex (i : Int) : Str :=
  if i < 0 then '-' :: natToHex i.natAbs else natToHex i.natAbs

def intToBin (i : Int) : Str :=
  if i < 0 then '-' :: natToBin i.natAbs else natToBin i.natAbs

def intToDec (i : Int) : Str :=
  if i < 0 then '-' :: natToDec i.natAbs else natToDec i.natAbs

/-- The `ToUint32` conversion of the ECMAScript bitwise operators. -/
def toUint32 (i : Int) : Nat := (i.emod 4294967296).toNat

/-- Reinterpret a 32-bit pattern as a signed JS bitwise-operator result. -/
def ofUint32 (n : Nat) : Int :=
  if n % 4294967296 ≥ 2147483648 then (n % 4294967296 : Int) - 4294967296
  else (n % 4294967296 : Int)

/-- JS `a << k` for a constant shift amount below 32. -/
def jsShl (a : Int) (k : Nat) : Int := ofUint32 ((toUint32 a) <<< k)

/-- JS `a | b`. -/
def jsOr (a b : Int) : Int := ofUint32 ((toUint32 a) ||| (toUint32 b))

/-- JS `padStart(n, c)`. -/
def padStart (n : Nat) (c : Char) (s : Str) : Str :=
  List.replicate (n - s.length) c ++ s

def boolToInt (b : Bool) : Int := if b then 1 else 0

/-- An instruction as represented by the "FPGA_ROM_Editor.exe" program
(class `Instruction` of assembler.ts). -/
structure Instruction where
  opcode : Int
  r1 : Bool
  data : Int
  comment : Str
deriving DecidableEq, Repr

/-- The `Instruction` constructor with its two bit-width guards
(assembler.ts lines 44-49): it throws when `data > 127` or
`opcode > 15` and stores the fields unchanged otherwise. -/
def Instruction.mk? (opcode : Int) (r1 : Bool) (data : Int) (comment : Str) :
    Except Str Instruction :=
  if 127 < data then
    .error (("Instruction data cannot be more than 7 bits but was ").data ++ intToBin data)
  else if 15 < opcode then
    .error (("Opcode cannot be more than 4 bits but was ").data ++ intToBin opcode)
  else .ok ⟨opcode, r1, data, comment⟩

/-- The serialized machine word of an instruction:
`opcode << 9 | (+r1) << 8 | data` with JS 32-bit bitwise semantics
(assembler.ts line 63). -/
def Instruction.wordVal (inst : Instruction) : Int :=
  jsOr (jsOr (jsShl inst.opcode 9) (jsShl (boolToInt inst.r1) 8)) inst.data

/-- `Instruction.toString`: the word in 4 zero-padded lowercase hex
digits, a semicolon, then the comment. -/
def Instruction.toStr (inst : Instruction) : Str :=
  padStart 4 '0' (intToHex inst.wordVal) ++ ';' :: inst.comment

inductive OperationReg
  | never
  | optional
  | always
deriving DecidableEq, Repr

inductive OperationData
  | address
  | binary
  | none
deriving DecidableEq, Repr

structure OperationOutput where
  opcode : Int
  useRegister : Bool
  useData : Bool
deriving DecidableEq, Repr

/-- A known assembly instruction (class `Operation`).  The extra `oid`
field models JS object identity, see the header comment. -/
structure Operation where
  oid : Nat
  op : Str
  reg : OperationReg
  data : OperationData
  alwaysBranches : Bool
  output : List OperationOutput
deriving DecidableEq, Repr

/-- `isOperationReg` plus the cast to the enumeration. -/
def parseOperationReg (s : Str) : Option OperationReg :=
  if s = ("never").data then some .never
  else if s = ("optional").data then some .optional
  else if s = ("always").data then some .always
  else none

/-- `isOperationData` plus the cast to the enumeration. -/
def parseOperationData (s : Str) : Option OperationData :=
  if s = ("address").data then some .address
  else if s = ("binary").data then some .binary
  else if s = ("none").data then some .none
  else none

/-- The modifier loop inside `Operation.parse`: applies `no-reg` and
`no-data` modifiers to an output entry, rejecting any other token. -/
def applyModifiers (entry : OperationOutput) (opcodeStr : Str) (i : Nat) :
    List Str → Except Str OperationOutput
  | [] => .ok entry
  | o :: rest =>
    if o = ("no-reg").data then
      applyModifiers { entry with useRegister := false } opcodeStr (i + 1) rest
    else if o = ("no-data").data then
      applyModifiers { entry with useData := false } opcodeStr (i + 1) rest
    else
      .error (("Invalid modifier #").data ++ natToDec (i + 1) ++ (" \"").data ++ o ++
        ("\" for output opcode \"").data ++ opcodeStr ++
        ("\", if this was expected to be a new opcode then add a comma (,) before it").data)

/-- One comma-separated output entry of a `@define` body:
`<opcode> [no-reg] [no-data]`. -/
def parseOutputEntry (outputStr : Str) : Except Str OperationOutput :=
  match (splitOnChar ' ' outputStr).filter (· ≠ []) with
  | [] => .error (("Failed to parse undefined as number to use as opcode").data)
  | opcodeStr :: options =>
    match jsNumber opcodeStr with
    | Option.none =>
      .error (("Failed to parse ").data ++ opcodeStr ++
        (" as number to use as opcode").data)
    | Option.some opcode =>
      applyModifiers ⟨opcode, true, true⟩ opcodeStr 0 options

def mapExcept (f : α → Except Str β) : List α → Except Str (List β)
  | [] => .ok []
  | a :: rest => do
    let b ← f a
    let bs ← mapExcept f rest
    .ok (b :: bs)

/-- `Operation.parse` (assembler.ts lines 92-166): the directive body
grammar `NAME reg=... data=... [unconditional-jump] [=> OUT[,OUT...]]`.
The caller supplies the allocation tag of the new object. -/
def Operation.parse (oid : Nat) (text0 : Str) : Except Str Operation :=
  let text := trim text0
  if text = [] then
    .error (("Could not parse <empty string> as an operation").data)
  else
    match indexOfChar text ' ' with
    | Option.none =>
      .error (("Expected register info \" reg=...\" after operation name \"").data ++
        text ++ ("\"").data)
    | Option.some opIx =>
      let op := text.take opIx
      let text := trimStart (text.drop (opIx + 1))
      match indexOfChar text ' ' with
      | Option.none =>
        .error (("Expected data info \" data=....\" after register info").data)
      | Option.some regIx =>
        let reg0 := text.take regIx
        let text := trimStart (text.drop (regIx + 1))
        if ¬ (("reg").data.isPrefixOf reg0) then
          .error (("Expected register info to start with \"reg=\" but found \"").data ++
            reg0 ++ ("\"").data)
        else
          let reg1 := trimStart (reg0.drop 3)
          if ¬ (("=").data.isPrefixOf reg1) then
            .error (("Expected register info to start with \"reg=\" but found no \"=\"").data)
          else
            match parseOperationReg (trimStart (reg1.drop 1)) with
            | Option.none =>
              .error (("Expected one of never, optional, always after \"reg=\"").data)
            | Option.some reg =>
              let dataSplit : Str × Str :=
                match indexOfChar text ' ' with
                | Option.some dataIx => (text.take dataIx, trimStart (text.drop (dataIx + 1)))
                | Option.none => (text, [])
              let dataStr := dataSplit.1
              let text := dataSplit.2
              if ¬ (("data").data.isPrefixOf dataStr) then
                .error (("Expected data info to start with \"data=\" but found \"").data ++
                  dataStr ++ ("\"").data)
              else
                let data1 := trimStart (dataStr.drop 4)
                if ¬ (("=").data.isPrefixOf data1) then
                  .error (("Expected data info to start with \"data=\" but found no \"=\"").data)
                else
                  match parseOperationData (trimStart (data1.drop 1)) with
                  | Option.none =>
                    .error (("Expected one of address, binary, none after \"data=\"").data)
                  | Option.some dataPolicy =>
                    let unreachable := ("unconditional-jump").data.isPrefixOf text
                    let text := if unreachable then trimStart (text.drop 18) else text
                    if text = [] then
                      .ok ⟨oid, op, reg, dataPolicy, unreachable, []⟩
                    else if ¬ (("=>").data.isPrefixOf text) then
                      .error (("Expected arrow \"=>\" after operation definition before output instructions").data)
                    else
                      (mapExcept parseOutputEntry (splitOnChar ',' (trimStart (text.drop 2)))).map
                        fun output => ⟨oid, op, reg, dataPolicy, unreachable, output⟩

inductive Reg
  | R0
  | R1
deriving DecidableEq, Repr

/-- A parsed statement item (the `Statement` record type). -/
structure Statement where
  op : Str
  reg : Option Reg := Option.none
  data : Option Int := Option.none
  jumpLabel : Option Str := Option.none
deriving DecidableEq, Repr

/-- A parsed attribute item (the `Attribute` record type). -/
structure AttrItem where
  content : Str
  op : Option Operation := Option.none
  no_default_ops : Bool := false
deriving DecidableEq, Repr

inductive Item
  | statement (s : Statement)
  | label (name : Str)
  | attr (a : AttrItem)
deriving DecidableEq, Repr

/-- The `parseItemTypes` filter of `ParseOptions`: an absent key of the
`Partial` JS record is falsy. -/
structure ParseItemTypes where
  attr : Bool := false
  label : Bool := false
  statement : Bool := false

structure ParseOptions where
  supportedOps : Option (List Operation) := Option.none
  expectBinaryData : Option (Str → Bool) := Option.none
  parseItemTypes : Option ParseItemTypes := Option.none

def canParseAttr (o : ParseOptions) : Bool :=
  match o.parseItemTypes with
  | Option.none => true
  | Option.some t => t.attr

def canParseLabel (o : ParseOptions) : Bool :=
  match o.parseItemTypes with
  | Option.none => true
  | Option.some t => t.label

def canParseStatement (o : ParseOptions) : Bool :=
  match o.parseItemTypes with
  | Option.none => true
  | Option.some t => t.statement

/-- `parseStatement` (assembler.ts lines 275-327).  The loop over the two
known registers is unrolled.  The data numeral is parsed as binary
exactly when the first supported operation of the same uppercased name
has the `binary` data policy. -/
def parseStatement (text0 : Str) (options : ParseOptions) : Except Str Statement :=
  let text := trim text0
  match indexOfChar text ' ' with
  | Option.none => .ok { op := text }
  | Option.some afterOpIx =>
    let op := trimEnd (text.take afterOpIx)
    let text := trimStart (text.drop afterOpIx)
    let regSplit : Option Reg × Str :=
      if ("R0").data.isPrefixOf text then (Option.some Reg.R0, trimStart (text.drop 2))
      else if ("R1").data.isPrefixOf text then (Option.some Reg.R1, trimStart (text.drop 2))
      else (Option.none, text)
    let reg := regSplit.1
    let text := regSplit.2
    if (":").data.isPrefixOf text then
      let jumpLabel := text.drop 1
      if jumpLabel.contains ' ' then
        .error (("Labels cannot contain spaces but found the label \"").data ++ text ++ ("\"").data)
      else
        .ok { op := op, reg := reg, jumpLabel := Option.some jumpLabel }
    else if text ≠ [] then
      let isBinary : Bool :=
        match options.supportedOps with
        | Option.some sops =>
          match sops.find? (fun o => strUpper o.op == strUpper op) with
          | Option.some o => o.data == OperationData.binary
          | Option.none => false
        | Option.none =>
          match options.expectBinaryData with
          | Option.some f => f op
          | Option.none => false
      let joined := text.filter (· ≠ ' ')
      match jsNumber ((if isBinary then ('0' :: 'b' :: []) else []) ++ joined) with
      | Option.some d => .ok { op := op, reg := reg, data := Option.some d }
      | Option.none =>
        if ("r").data.isPrefixOf (strLower text) then
          .error (("This instruction did not expect a register").data)
        else
          .error (("Failed to parse ").data ++ text ++ (" as a ").data ++
            (if isBinary then ("binary ").data else []) ++ ("number").data)
    else
      .ok { op := op, reg := reg }

/-- A parsed source line (class `Line`). -/
structure Line where
  line : Str
  uncommentedLine : Str
  item : Option Item := Option.none
  comment : Option Str := Option.none
  secretComment : Option Str := Option.none
deriving DecidableEq, Repr

/-- `Line.parse` (assembler.ts lines 194-248): strip the `#` secret comment,
strip the `//` public comment, trim, then classify by leading character.
`oid` is the allocation tag handed to `Operation.parse` for a `@define`
line. -/
def stripSecret (line : Str) : Option Str × Str :=
  match indexOfChar line '#' with
  | Option.some ix => (Option.some (line.drop (ix + 1)), line.take ix)
  | Option.none => (Option.none, line)

def stripPublic (text1 : Str) : Option Str × Str :=
  match indexOfSeq ("//").data text1 with
  | Option.some ix => (Option.some (text1.drop (ix + 2)), text1.take ix)
  | Option.none => (Option.none, text1)

/-- The item classification of `Line.parse`: classify the trimmed
uncommented text by its leading character, honoring the
`parseItemTypes` filter. -/
def classifyItem (oid : Nat) (text : Str) (options : ParseOptions) :
    Except Str (Option Item) :=
  if ("@").data.isPrefixOf text then
    if canParseAttr options then
      if ("@define").data.isPrefixOf text then
        (Operation.parse oid (text.drop 7)).map fun o =>
          Option.some (Item.attr { content := text.drop 1, op := Option.some o })
      else if strLower text = ("@no_default_ops").data then
        .ok (Option.some (Item.attr { content := text.drop 1, no_default_ops := true }))
      else
        .error (("Expected @define or @no_default_ops but found \"").data ++ text ++ ("\"").data)
    else .ok Option.none
  else if (":").data.isPrefixOf text then
    if canParseLabel options then
      if (text.drop 1).contains ' ' then
        .error (("Labels cannot contain spaces but found the label \"").data ++ text ++ ("\"").data)
      else .ok (Option.some (Item.label (text.drop 1)))
    else .ok Option.none
  else if text ≠ [] ∧ canParseStatement options then
    (parseStatement text options).map fun s => Option.some (Item.statement s)
  else .ok Option.none

def Line.parse (oid : Nat) (line : Str) (options : ParseOptions) : Except Str Line :=
  let secretSplit := stripSecret line
  let secretComment := secretSplit.1
  let text1 := secretSplit.2
  let commentSplit := stripPublic text1
  let comment := commentSplit.1
  let text := trim commentSplit.2
  (classifyItem oid text options).map fun item =>
    { line := line, uncommentedLine := text, item := item,
      comment := comment, secretComment := secretComment }

/-- Insertion-ordered map with ECMAScript `Map` semantics. -/
structure JsMap (β : Type) where
  entries : List (Str × β)
deriving DecidableEq, Repr

def JsMap.get (m : JsMap β) (k : Str) : Option β :=
  (m.entries.find? (fun kv => kv.1 == k)).map (·.2)

def JsMap.has (m : JsMap β) (k : Str) : Bool :=
  (m.entries.find? (fun kv => kv.1 == k)).isSome

def setEntries (k : Str) (v : β) : List (Str × β) → List (Str × β)
  | [] => [(k, v)]
  | kv :: rest => if kv.1 = k then (kv.1, v) :: rest else kv :: setEntries k v rest

def JsMap.set (m : JsMap β) (k : Str) (v : β) : JsMap β :=
  ⟨setEntries k v m.entries⟩

def JsMap.delete (m : JsMap β) (k : Str) : JsMap β :=
  ⟨m.entries.filter (fun kv => kv.1 ≠ k)⟩

def JsMap.values (m : JsMap β) : List β := m.entries.map (·.2)

def JsMap.keys (m : JsMap β) : List Str := m.entries.map (·.1)

def emptyMap : JsMap β := ⟨[]⟩

/-- The built-in default operation table source text (assembler.ts
lines 337-348). -/
def defaultOpsText : Str :=
  ("\nCALL reg=never data=address => 0\nRET reg=never data=none unconditional-jump => 1\nBZ reg=always data=address => 2\nB reg=never data=address unconditional-jump => 3\nADD reg=always data=binary => 4\nSUB reg=always data=binary => 5\nLD reg=always data=binary => 6\nIN reg=always data=none => 7\nOUT reg=always data=none => 8\nAND reg=always data=binary => 9\nWRITE reg=optional data=binary => 6, 8 no-data\n").data

def mapExceptIdx (f : Nat → α → Except Str β) : Nat → List α → Except Str (List β)
  | _, [] => .ok []
  | i, a :: rest => do
    let b ← f i a
    let bs ← mapExceptIdx f (i + 1) rest
    .ok (b :: bs)

def defaultOpsE : Except Str (List Operation) :=
  mapExceptIdx (fun ix l => Operation.parse ix l) 0
    ((splitOnChar '\n' defaultOpsText).filter (· ≠ []))

/-- The eleven built-in default operations, with allocation tags 0..10. -/
def defaultOps : List Operation := defaultOpsE.toOption.getD []

structure ProcessOptions where
  resolveLabels : Bool
  validateInstructionArgs : Bool
deriving DecidableEq, Repr

/-- The mutable state threaded by `Program._process`: the instruction
list, the unreachable flag, the program's label map and operation table
(which the walk mutates), and the warnings fired so far. -/
structure ProcState where
  instructions : List Instruction
  unreachable : Bool
  labels : Option (JsMap Nat)
  ops : JsMap Operation
  warnings : List (Str × Nat)
deriving DecidableEq, Repr

/-- The argument validation block of `Program._process`
(assembler.ts lines 407-439), executed only when
`validateInstructionArgs` is set: the register policy switch followed by
the data policy switch.  On success it returns the hardcoded-address
warnings fired (zero or one). -/
def hardcodedWarning (v : Int) : Str :=
  ("branching to hard coded address ").data ++ intToDec v

/-- JS truthiness of the optional `jumpLabel` string: both `undefined`
and the empty string `""` (produced by a bare `:` operand) are falsy, so
`if (line.item.jumpLabel)` (line 397) and `!line.item.jumpLabel`
(line 426) treat them alike. -/
def jumpLabelTruthy : Option Str → Bool
  | Option.none => false
  | Option.some l => !l.isEmpty

def validateArgsFn (op : Operation) (item : Statement) (dataVal : Option Int)
    (unreachable : Bool) (i : Nat) : Except Str (List (Str × Nat)) :=
  match op.reg, item.reg with
  | OperationReg.always, Option.none =>
    .error (("Must specify register using R0 or R1").data)
  | OperationReg.never, Option.some r =>
    .error (("Cannot specify a register for this operation, remove \"").data ++
      (if r = Reg.R1 then ("R1").data else ("R0").data) ++ ("\"").data)
  | _, _ =>
    match op.data with
    | OperationData.address =>
      match dataVal with
      | Option.none => .error (("This instruction requires a target address").data)
      | Option.some v =>
        if jumpLabelTruthy item.jumpLabel = false ∧ unreachable = false then
          .ok [(hardcodedWarning v, i)]
        else .ok []
    | OperationData.binary =>
      match dataVal with
      | Option.none => .error (("This instruction requires a binary value").data)
      | Option.some _ => .ok []
    | OperationData.none => .ok []

/-- The `(Assembly: ...)` label annotation: every label bound to the
next emitted address, in label map insertion order. -/
def labelCommentOf (labels : Option (JsMap Nat)) (addr : Nat) : Str :=
  match labels with
  | Option.none => []
  | Option.some L =>
    L.entries.foldl
      (fun acc kv =>
        if addr = kv.2 then
          acc ++ ':' :: (kv.1.map (fun c => if c = ' ' then '_' else c)) ++ [' ']
        else acc)
      []

/-- The comment attached to every instruction emitted for a line: the
public comment (with a separating space when nonempty) followed by the
`(Assembly: ...)` annotation of the source line and the labels bound to
the next emitted address. -/
def commentOf (st : ProcState) (line : Line) : Str :=
  (match line.comment with
   | Option.some c => c ++ (if c = [] then [] else [' '])
   | Option.none => []) ++
  ("(Assembly: ").data ++ labelCommentOf st.labels st.instructions.length ++
  line.uncommentedLine ++ [')']

/-- The output loop of the statement case: one `Instruction` per output
descriptor of the operation. -/
def encodeOutputs (outs : List OperationOutput) (r1 : Bool) (dataVal : Option Int)
    (comment : Str) : Except Str (List Instruction) :=
  match outs with
  | [] => .ok []
  | out :: rest => do
    let inst ← Instruction.mk? out.opcode
      (if out.useRegister then r1 else false)
      (if out.useData then dataVal.getD 0 else 0) comment
    let more ← encodeOutputs rest r1 dataVal comment
    .ok (inst :: more)

/-- The `no_default_ops` handling (assembler.ts lines 461-466): for each
built-in default operation, the table entry under the uppercased default
name is removed when it is still the original default instance. -/
def applyNoDefaultOps (ds : List Operation) (m : JsMap Operation) : JsMap Operation :=
  ds.foldl
    (fun m d =>
      match m.get (strUpper d.op) with
      | Option.some v => if v.oid = d.oid then m.delete (strUpper d.op) else m
      | Option.none => m)
    m

/-- The jump-label resolution at the top of the statement case
(assembler.ts lines 397-404), guarded by the JS truthiness test
`if (line.item.jumpLabel)`: a statement whose jump label is absent or
the empty string (a bare `:` operand) is never resolved and keeps its
`data` as parsed.  It models the in-place mutation
`line.item.data = address` of the source: in the validating pass a
statement with a truthy jump label either re-resolves it against the
complete label map or fails, so the value the rest of the case observes
is the one the source observes. -/
def resolveDataVal (opts : ProcessOptions) (labels : Option (JsMap Nat))
    (item : Statement) : Except Str (Option Int) :=
  if jumpLabelTruthy item.jumpLabel then
    let l := item.jumpLabel.getD []
    match (match labels with
           | Option.some L => L.get l
           | Option.none => Option.none) with
    | Option.some a => Except.ok (Option.some (a : Int))
    | Option.none =>
      if opts.validateInstructionArgs then
        Except.error (("Label \"").data ++ l ++ ("\" was never defined").data)
      else Except.ok item.data
  else Except.ok item.data

/-- The body of the per-line loop of `Program._process`
(assembler.ts lines 384-475), as a pure transition on `ProcState`.  The
in-place mutation `line.item.data = address` of the source is modeled by
the local `dataVal`: in the validating pass a statement with a jump label
either re-resolves it against the (complete) label map or fails, so the
value observed is the same as the source observes. -/
def processItem (opts : ProcessOptions) (i : Nat) (st : ProcState) (line : Line) :
    Except Str ProcState :=
  match line.item with
  | Option.none => .ok st
  | Option.some (Item.label name) =>
    let st := { st with unreachable := false }
    if !opts.resolveLabels then .ok st
    else
      match st.labels with
      | Option.none => .ok st
      | Option.some L =>
        if L.has name then
          .error (("Label \"").data ++ name ++ ("\" was defined multiple times").data)
        else
          .ok { st with labels := Option.some (L.set name st.instructions.length) }
  | Option.some (Item.statement item) => do
    let dataVal ← resolveDataVal opts st.labels item
    match st.ops.get (strUpper item.op) with
    | Option.none =>
      .error (("Unknown operation \"").data ++ item.op ++ ("\"").data)
    | Option.some op => do
      let newWarnings ←
        if opts.validateInstructionArgs then
          validateArgsFn op item dataVal st.unreachable i
        else Except.ok []
      let newInstrs ← encodeOutputs op.output (item.reg = Option.some Reg.R1) dataVal
        (commentOf st line)
      .ok { st with
        instructions := st.instructions ++ newInstrs,
        warnings := st.warnings ++ newWarnings,
        unreachable := if op.alwaysBranches then true else st.unreachable }
  | Option.some (Item.attr a) =>
    let st :=
      if a.no_default_ops then { st with ops := applyNoDefaultOps defaultOps st.ops }
      else st
    match a.op with
    | Option.some o => .ok { st with ops := st.ops.set o.op o }
    | Option.none => .ok st

/-- The try/catch wrapper of the per-line loop: any failure is re-raised
with the 1-based line number and the raw line text, the original error
attached as cause. -/
def wrapLineErr (i : Nat) (raw : Str) (e : Str) : Str :=
  ("Failed to emit instruction for line ").data ++ natToDec (i + 1) ++
  (" in assembly file with content:\n\t").data ++ raw ++
  ("\nCaused by: Error: ").data ++ e

def processLines (opts : ProcessOptions) : Nat → ProcState → List Line → Except Str ProcState
  | _, st, [] => .ok st
  | i, st, line :: rest =>
    match processItem opts i st line with
    | .ok st' => processLines opts (i + 1) st' rest
    | .error e => .error (wrapLineErr i line.line e)

/-- A `Program`: the parsed lines plus the lazily created label map and
the operation table. -/
structure Program where
  lines : List Line
  labels : Option (JsMap Nat)
  ops : JsMap Operation
deriving DecidableEq, Repr

def wrapSyntaxErr (i : Nat) (raw : Str) (e : Str) : Str :=
  ("Syntax error at line ").data ++ natToDec (i + 1) ++
  (" with content \"").data ++ raw ++ ("\"").data ++
  ("\nCaused by: Error: ").data ++ e

def parseLines (options : ParseOptions) : Nat → List Str → Except Str (List Line)
  | _, [] => .ok []
  | ix, raw :: rest =>
    match Line.parse (11 + ix) raw options with
    | .ok l =>
      match parseLines options (ix + 1) rest with
      | .ok ls => .ok (l :: ls)
      | .error e => .error e
    | .error e => .error (wrapSyntaxErr ix raw e)

/-- `Program.parse`: strip carriage returns, split on newlines, parse
each line (wrapping failures with the 1-based line number). -/
def Program.parse (content : Str) (options : ParseOptions) : Except Str Program :=
  (parseLines options 0 (splitOnChar '\n' (content.filter (· ≠ '\r')))).map
    fun lines => { lines := lines, labels := Option.none, ops := emptyMap }

/-- `Program.setOps`: rebuild the table keyed by uppercased names. -/
def Program.setOps (p : Program) (ops : List Operation) : Program :=
  { p with ops := ⟨[]⟩ |> fun m => ops.foldl (fun m o => m.set (strUpper o.op) o) m }

def Program.process (p : Program) (opts : ProcessOptions) : Except Str ProcState :=
  processLines opts 0
    { instructions := [], unreachable := false, labels := p.labels,
      ops := p.ops, warnings := [] }
    p.lines

/-- `Program.loadDefinedOps`: a non-resolving, non-validating walk whose
only observable effect is the directive mutation of the table. -/
def Program.loadDefinedOps (p : Program) : Except Str Program :=
  (p.process { resolveLabels := false, validateInstructionArgs := false }).map
    fun st => { p with ops := st.ops, labels := st.labels }

/-- `Program.resolveLabels`: create the label map and run the collecting
pass (pass 1). -/
def Program.resolveLabels (p : Program) : Except Str Program :=
  if p.labels.isSome then .ok p
  else
    (({ p with labels := Option.some emptyMap }).process
        { resolveLabels := true, validateInstructionArgs := false }).map
      fun (st : ProcState) => { p with labels := st.labels, ops := st.ops }

/-- The validating encode pass of `Program.emit`, before serialization:
the emitted instructions, the warnings, and the walked program state. -/
def Program.emitInstrs (p : Program) :
    Except Str (List Instruction × List (Str × Nat) × Program) :=
  if p.labels.isNone then
    .error (("Generate labels before emitting instructions").data)
  else
    (p.process { resolveLabels := false, validateInstructionArgs := true }).map
      fun (st : ProcState) =>
        (st.instructions, st.warnings, { p with labels := st.labels, ops := st.ops })

/-- The serialization step of `Program.emit`: one line per instruction,
then `0000;` filler lines until there are 64 instructions. -/
def imageOf (instrs : List Instruction) : Str :=
  (instrs.map (fun inst => Instruction.toStr inst ++ ['\n'])).flatten ++
  (List.replicate (64 - instrs.length) (("0000;\n").data)).flatten

/-- The top-level `assemble` pipeline (assembler.ts lines 516-526) up to
and including the validating encode pass of `emit`. -/
def assembleCore (content : Str) :
    Except Str (List Instruction × List (Str × Nat) × Program) := do
  let attributes ← Program.parse content
    { parseItemTypes := Option.some { attr := true } }
  let attributes := attributes.setOps defaultOps
  let attributes ← attributes.loadDefinedOps
  let supportedOps := attributes.ops.values
  let prog ← Program.parse content { supportedOps := Option.some supportedOps }
  let prog := prog.setOps supportedOps
  let prog ← prog.resolveLabels
  prog.emitInstrs

/-- `assemble`: the serialized image of a successful run. -/
def assemble (content : Str) : Except Str Str :=
  (assembleCore content).map fun r => imageOf r.1

def isOkE (e : Except Str α) : Bool :=
  match e with
  | .ok _ => true
  | .error _ => false

def getOkD (e : Except Str α) (d : α) : α :=
  match e with
  | .ok a => a
  | .error _ => d

def getErrD (e : Except Str α) : Str :=
  match e with
  | .ok _ => []
  | .error s => s

/-- The lines of an output image: the newline-terminated segments. -/
def linesOf (s : Str) : List Str := (splitOnChar '\n' s).dropLast

def hexLowerDigit (c : Char) : Bool := c.isDigit || ('a' ≤ c && c ≤ 'f')

/-- Decides the regular expression `^[0-9a-f]{4};.*$` on one line. -/
def isHex4Line : Str → Bool
  | a :: b :: c :: d :: e :: _ =>
    hexLowerDigit a && hexLowerDigit b && hexLowerDigit c && hexLowerDigit d && e == ';'
  | _ => false

/-- Substring test, used for the error message fragments the claims
name. -/
def containsSeq (pat s : Str) : Bool := (indexOfSeq pat s).isSome

/-- No newline occurs in the string; source lines and everything derived
from them satisfy this, which is what makes line counting of the output
image meaningful. -/
def noNL (s : Str) : Prop := ∀ c ∈ s, c ≠ '\n'

instance decNoNL (s : Str) : Decidable (noNL s) :=
  inferInstanceAs (Decidable (∀ c ∈ s, c ≠ '\n'))

/-- Well-formedness of an emitted instruction: its comment is
newline-free and its fields respect the constructor's bit-width guards. -/
def InstrWF (inst : Instruction) : Prop :=
  noNL inst.comment ∧ inst.data ≤ 127 ∧ inst.opcode ≤ 15

def LabelsWF : Option (JsMap Nat) → Prop
  | Option.none => True
  | Option.some L => ∀ kv ∈ L.entries, noNL kv.1

def LineWF (l : Line) : Prop :=
  noNL l.uncommentedLine ∧
  (∀ c, l.comment = Option.some c → noNL c) ∧
  (∀ n, l.item = Option.some (Item.label n) → noNL n)

def StWF (st : ProcState) : Prop :=
  (∀ i ∈ st.instructions, InstrWF i) ∧ LabelsWF st.labels

/-- The table entry `v` under key `k` is (the model of) the original
default instance whose removal the clear-defaults directive performs. -/
def isOrigDefaultEntry (k : Str) (v : Operation) : Bool :=
  defaultOps.any fun d => strUpper d.op == k && v.oid == d.oid

/-- Whether a statement satisfies its operation's register policy. -/
def regPolicyOk (op : Operation) (item : Statement) : Bool :=
  match op.reg with
  | OperationReg.always => item.reg.isSome
  | OperationReg.never => item.reg.isNone
  | OperationReg.optional => true

def emitOptions : ProcessOptions :=
  { resolveLabels := false, validateInstructionArgs := true }

def resolveOptions : ProcessOptions :=
  { resolveLabels := true, validateInstructionArgs := false }

def fillerStr : Str := ("0000;").data

def dfltRes : List Instruction × List (Str × Nat) × Program :=
  ([], [], { lines := [], labels := Option.none, ops := emptyMap })

def resLabelsGet (res : List Instruction × List (Str × Nat) × Program)
    (name : Str) : Option Nat :=
  match res.2.2.labels with
  | Option.some L => L.get name
  | Option.none => Option.none

/-- Claim C1 counterexample input: 64 one-word statements followed by a
branch to the literal address -5, 65 instruction words in total. -/
def c1src : Str := (List.replicate 64 (("IN R0\n").data)).flatten ++ ("B -5").data

/-- Claim C1 witness input. -/
def c1wsrc : Str := ("OUT R1").data

/-- Claim C2 concrete inputs: a forward and a backward reference to the
same label. -/
def c2fwdSrc : Str := ("B :x\n:x").data

def c2bwdSrc : Str := (":x\nB :x").data

/-- Claim C2 counterexample inputs: references written as a bare `:`
(the empty label name), once on an address-policy operation and once on
a data-free operation, each with the empty-named label defined on a
later line. -/
def c2emptyFwdSrc : Str := ("B :\n:").data

def c2emptyDataSrc : Str := ("IN R0 :\n:").data

/-- Claim C3 concrete input: an ADD with an 8-bit binary literal. -/
def c3src : Str := ("ADD R0 1111 1111").data

/-- Claim C4 counterexample input: a numeric value on a data policy
`none` operation. -/
def c4src : Str := ("IN R0 101").data

/-- Claim C5 concrete inputs. -/
def c5src : Str :=
  ("@no_default_ops\n@define CALL reg=never data=address => 0\n:x\nCALL :x").data

def c5srcRET : Str :=
  ("@no_default_ops\n@define CALL reg=never data=address => 0\n:x\nCALL :x\nRET").data

/-- Claim C6 counterexample: a redefinition whose name is not uppercase. -/
def c6defineSrc : Str := ("@define call reg=never data=none => 1").data

def emptyLine : Line := { line := [], uncommentedLine := [] }

def emptySt : ProcState :=
  { instructions := [], unreachable := false, labels := Option.none,
    ops := emptyMap, warnings := [] }

def c6line : Line := getOkD (Line.parse 11 c6defineSrc {}) emptyLine

/-- Claim C6 witness material: an uppercase-named operation and an
attribute line defining it. -/
def c6op : Operation :=
  { oid := 99, op := ("CALL").data, reg := OperationReg.never,
    data := OperationData.address, alwaysBranches := false, output := [] }

def c6opLine : Line :=
  { line := [], uncommentedLine := [],
    item := Option.some (Item.attr { content := [], op := Option.some c6op }) }

/-- Claim C7 concrete input: two consecutive hardcoded-address branches. -/
def c7src : Str := ("B 5\nB 6").data

/-- Claim C8 concrete input, the example of the specification. -/
def c8src : Str :=
  (":main\nLD R0 000 1010\nSUB R0 000 0001\nBZ R0 :Finished\nB :main\n\n:Finished").data

/-- Claim C9 witness material: 65 identical instruction words. -/
def c9instrs : List Instruction := List.replicate 65 ⟨0, false, 0, []⟩

/-- Claim C10 concrete input: a branch to a negative literal address. -/
def c10src : Str := ("B -5").data

/-- Claim C2 witness material: a state with an empty label map and a
label line binding "x". -/
def stLab0 : ProcState :=
  { instructions := [], unreachable := false, labels := Option.some emptyMap,
    ops := emptyMap, warnings := [] }

def c2labelLine : Line :=
  { line := [], uncommentedLine := [],
    item := Option.some (Item.label (("x").data)) }

/-- Claim C2 witness material: a statement whose jump label is the empty
string, as parsed from a bare `:` operand. -/
def c2emptyStmt : Statement :=
  { op := ("B").data, jumpLabel := Option.some [] }

/-- Claim C4 witness material: a data policy `none` operation and a
statement carrying a numeric value for it. -/
def c4op : Operation :=
  { oid := 98, op := ("IN").data, reg := OperationReg.always,
    data := OperationData.none, alwaysBranches := false,
    output := [{ opcode := 7, useRegister := true, useData := true }] }

def c4stmt : Statement :=
  { op := ("IN").data, reg := Option.some Reg.R0, data := Option.some 101 }

theorem digitChar_hexLower : ∀ k, k < 16 → hexLowerDigit (Nat.digitChar k) = true := by decide

theorem digitChar_ne_newline : ∀ k, k < 16 → Nat.digitChar k ≠ '\n' := by decide

theorem natToBaseAux_mem (base : Nat) (hb : 0 < base) (hb16 : base ≤ 16) :
    ∀ fuel n c, c ∈ natToBaseAux base fuel n → ∃ k, k < 16 ∧ c = Nat.digitChar k := by
  intro fuel
  induction fuel with
  | zero => intro n c hc; simp [natToBaseAux] at hc
  | succ f ih =>
    intro n c hc
    unfold natToBaseAux at hc
    split at hc
    · rename_i hlt
      simp only [List.mem_singleton] at hc
      exact ⟨n, by omega, hc⟩
    · rcases List.mem_append.1 hc with h | h
      · exact ih _ _ h
      · simp only [List.mem_singleton] at h
        exact ⟨n % base, by have := Nat.mod_lt n hb; omega, h⟩

theorem natToBaseAux16_len : ∀ k fuel n, n < fuel → n < 16 ^ (k + 1) →
    (natToBaseAux 16 fuel n).length ≤ k + 1 := by
  intro k
  induction k with
  | zero =>
    intro fuel n hfuel hn
    have h16 : (16 : Nat) ^ (0 + 1) = 16 := by norm_num
    cases fuel with
    | zero => omega
    | succ f =>
      unfold natToBaseAux
      split
      · simp
      · omega
  | succ k ih =>
    intro fuel n hfuel hn
    cases fuel with
    | zero => omega
    | succ f =>
      unfold natToBaseAux
      split
      · simp
      · rename_i h
        have h1 : n / 16 < f := by
          have := Nat.div_lt_self (by omega : 0 < n) (by omega : 1 < 16)
          omega
        have h2 : n / 16 < 16 ^ (k + 1) := by
          rw [Nat.div_lt_iff_lt_mul (by omega : 0 < 16)]
          calc n < 16 ^ (k + 1 + 1) := hn
          _ = 16 ^ (k + 1) * 16 := by ring
        have := ih f (n / 16) h1 h2
        simp only [List.length_append, List.length_singleton]
        omega

theorem natToBaseAux_ne_nil (base : Nat) (fuel n : Nat) (h : n < fuel) :
    natToBaseAux base fuel n ≠ [] := by
  cases fuel with
  | zero => omega
  | succ f =>
    unfold natToBaseAux
    split
    · simp
    · simp

theorem padStart_length (n : Nat) (c : Char) (s : Str) (h : s.length ≤ n) :
    (padStart n c s).length = n := by
  simp [padStart]
  omega

theorem padStart_mem (n : Nat) (c : Char) (s : Str) (x : Char)
    (hx : x ∈ padStart n c s) : x = c ∨ x ∈ s := by
  rcases List.mem_append.1 hx with h | h
  · exact Or.inl (List.eq_of_mem_replicate h)
  · exact Or.inr h

theorem isHex4Line_of (l rest : Str) (hlen : l.length = 4)
    (hall : ∀ c ∈ l, hexLowerDigit c = true) :
    isHex4Line (l ++ ';' :: rest) = true := by
  rcases l with _ | ⟨a, _ | ⟨b, _ | ⟨c, _ | ⟨d, _ | ⟨e, tail⟩⟩⟩⟩⟩ <;>
    simp_all [isHex4Line]

theorem wordVal_bound : ∀ (o : Nat), o < 16 → ∀ (d : Nat), d < 128 →
    (0 ≤ Instruction.wordVal ⟨(o : Int), false, (d : Int), []⟩ ∧
      (Instruction.wordVal ⟨(o : Int), false, (d : Int), []⟩).natAbs < 65536) ∧
    (0 ≤ Instruction.wordVal ⟨(o : Int), true, (d : Int), []⟩ ∧
      (Instruction.wordVal ⟨(o : Int), true, (d : Int), []⟩).natAbs < 65536) := by decide

theorem natToHex_len (n : Nat) (h : n < 65536) : (natToHex n).length ≤ 4 := by
  have : n < 16 ^ (3 + 1) := by norm_num; omega
  exact natToBaseAux16_len 3 (n + 1) n (by omega) this

theorem natToHex_mem (n : Nat) (c : Char) (hc : c ∈ natToHex n) :
    hexLowerDigit c = true := by
  obtain ⟨k, hk, rfl⟩ := natToBaseAux_mem 16 (by omega) (by omega) (n + 1) n c hc
  exact digitChar_hexLower k hk

theorem natToHex_ne_nil (n : Nat) : natToHex n ≠ [] :=
  natToBaseAux_ne_nil 16 (n + 1) n (by omega)

theorem toStr_hex4 (inst : Instruction) (ho0 : 0 ≤ inst.opcode) (ho : inst.opcode ≤ 15)
    (hd0 : 0 ≤ inst.data) (hd : inst.data ≤ 127) : isHex4Line inst.toStr = true := by
  obtain ⟨o, r, d, cm⟩ := inst
  simp only at ho0 ho hd0 hd
  have hw : 0 ≤ Instruction.wordVal ⟨o, r, d, cm⟩ ∧
      (Instruction.wordVal ⟨o, r, d, cm⟩).natAbs < 65536 := by
    have honat : o.toNat < 16 := by omega
    have hdnat : d.toNat < 128 := by omega
    have hkey : Instruction.wordVal ⟨o, r, d, cm⟩ =
        Instruction.wordVal ⟨((o.toNat : Nat) : Int), r, ((d.toNat : Nat) : Int), []⟩ := by
      simp only [Instruction.wordVal]
      rw [Int.toNat_of_nonneg ho0, Int.toNat_of_nonneg hd0]
    rw [hkey]
    cases r
    · exact (wordVal_bound o.toNat honat d.toNat hdnat).1
    · exact (wordVal_bound o.toNat honat d.toNat hdnat).2
  simp only [Instruction.toStr]
  have hhex : intToHex (Instruction.wordVal ⟨o, r, d, cm⟩) =
      natToHex (Instruction.wordVal ⟨o, r, d, cm⟩).natAbs := by
    simp [intToHex]
    omega
  rw [hhex]
  apply isHex4Line_of
  · apply padStart_length
    exact natToHex_len _ hw.2
  · intro c hc
    rcases padStart_mem _ _ _ _ hc with h | h
    · rw [h]; rfl
    · exact natToHex_mem _ _ h

theorem noNL_nil : noNL [] := by
  intro c hc
  simp at hc

theorem noNL_take (s : Str) (h : noNL s) (n : Nat) : noNL (s.take n) :=
  fun c hc => h c (List.take_subset n s hc)

theorem noNL_drop (s : Str) (h : noNL s) (n : Nat) : noNL (s.drop n) :=
  fun c hc => h c (List.drop_subset n s hc)

theorem noNL_dropWhile (s : Str) (h : noNL s) (p : Char → Bool) :
    noNL (s.dropWhile p) :=
  fun c hc => h c ((List.dropWhile_sublist p).subset hc)

theorem noNL_reverse (s : Str) (h : noNL s) : noNL s.reverse :=
  fun c hc => h c (List.mem_reverse.1 hc)

theorem noNL_filter (s : Str) (h : noNL s) (p : Char → Bool) : noNL (s.filter p) :=
  fun c hc => h c (List.mem_of_mem_filter hc)

theorem noNL_append (a b : Str) (ha : noNL a) (hb : noNL b) : noNL (a ++ b) := by
  intro c hc
  rcases List.mem_append.1 hc with h | h
  · exact ha c h
  · exact hb c h

theorem noNL_trimStart (s : Str) (h : noNL s) : noNL (trimStart s) :=
  noNL_dropWhile s h isWs

theorem noNL_trimEnd (s : Str) (h : noNL s) : noNL (trimEnd s) :=
  noNL_reverse _ (noNL_dropWhile _ (noNL_reverse s h) isWs)

theorem noNL_trim (s : Str) (h : noNL s) : noNL (trim s) :=
  noNL_trimStart _ (noNL_trimEnd s h)

theorem splitOnChar_ne_nil (c : Char) (s : Str) : splitOnChar c s ≠ [] := by
  cases s with
  | nil => simp [splitOnChar]
  | cons a as =>
    unfold splitOnChar
    split
    · simp
    · cases splitOnChar c as <;> simp

theorem splitOnChar_mem (c : Char) :
    ∀ (s : Str) piece, piece ∈ splitOnChar c s → ∀ x ∈ piece, x ≠ c := by
  intro s
  induction s with
  | nil =>
    intro piece hp x hx
    simp [splitOnChar] at hp
    subst hp
    simp at hx
  | cons a as ih =>
    intro piece hp x hx
    unfold splitOnChar at hp
    split at hp
    · rcases List.mem_cons.1 hp with rfl | hp
      · simp at hx
      · exact ih piece hp x hx
    · rename_i hne
      cases hsp : splitOnChar c as with
      | nil => exact absurd hsp (splitOnChar_ne_nil c as)
      | cons hd tl =>
        rw [hsp] at hp
        rcases List.mem_cons.1 hp with rfl | hp
        · rcases List.mem_cons.1 hx with rfl | hx
          · exact hne
          · exact ih hd (hsp ▸ List.mem_cons_self hd tl) x hx
        · exact ih piece (hsp ▸ List.mem_cons_of_mem hd hp) x hx

theorem splitOnChar_append (c : Char) (l r : Str) (h : ∀ x ∈ l, x ≠ c) :
    splitOnChar c (l ++ c :: r) = l :: splitOnChar c r := by
  induction l with
  | nil => simp [splitOnChar]
  | cons a as ih =>
    have ha : ¬ (a = c) := h a (List.mem_cons_self a as)
    have ih' := ih (fun x hx => h x (List.mem_cons_of_mem a hx))
    simp [splitOnChar, ha, ih']

theorem intToHex_mem (i : Int) (c : Char) (hc : c ∈ intToHex i) : c ≠ '\n' := by
  unfold intToHex at hc
  split at hc
  · rcases List.mem_cons.1 hc with rfl | h
    · decide
    · obtain ⟨k, hk, rfl⟩ := natToBaseAux_mem 16 (by omega) (by omega) _ _ c h
      exact digitChar_ne_newline k hk
  · obtain ⟨k, hk, rfl⟩ := natToBaseAux_mem 16 (by omega) (by omega) _ _ c hc
    exact digitChar_ne_newline k hk

theorem toStr_noNL (inst : Instruction) (h : noNL inst.comment) : noNL inst.toStr := by
  intro c hc
  simp only [Instruction.toStr] at hc
  rcases List.mem_append.1 hc with h1 | h1
  · rcases padStart_mem _ _ _ _ h1 with rfl | h2
    · decide
    · exact intToHex_mem _ _ h2
  · rcases List.mem_cons.1 h1 with rfl | h2
    · decide
    · exact h c h2

theorem linesOf_fillers : ∀ k,
    splitOnChar '\n' ((List.replicate k (("0000;\n").data)).flatten) =
      List.replicate k fillerStr ++ [[]] := by
  intro k
  induction k with
  | zero => simp [splitOnChar]
  | succ k ih =>
    have hstep : (List.replicate (k + 1) (("0000;\n").data)).flatten =
        fillerStr ++ '\n' :: (List.replicate k (("0000;\n").data)).flatten := rfl
    rw [hstep, splitOnChar_append '\n' fillerStr _ (by decide), ih]
    simp [List.replicate_succ]

theorem splitOnChar_imageBody (instrs : List Instruction)
    (h : ∀ i ∈ instrs, noNL (Instruction.toStr i)) (k : Nat) :
    splitOnChar '\n'
      ((instrs.map (fun i => Instruction.toStr i ++ ['\n'])).flatten ++
        (List.replicate k (("0000;\n").data)).flatten) =
    instrs.map Instruction.toStr ++ (List.replicate k fillerStr ++ [[]]) := by
  induction instrs with
  | nil => simpa using linesOf_fillers k
  | cons i is ih =>
    have hshape :
        ((List.map (fun i => Instruction.toStr i ++ ['\n']) (i :: is)).flatten ++
          (List.replicate k (("0000;\n").data)).flatten) =
        Instruction.toStr i ++ '\n' ::
          ((is.map (fun i => Instruction.toStr i ++ ['\n'])).flatten ++
            (List.replicate k (("0000;\n").data)).flatten) := by
      simp
    rw [hshape,
      splitOnChar_append '\n' (Instruction.toStr i) _ (h i (List.mem_cons_self i is)),
      ih (fun j hj => h j (List.mem_cons_of_mem i hj))]
    simp

theorem linesOf_imageOf (instrs : List Instruction)
    (h : ∀ i ∈ instrs, noNL i.comment) :
    linesOf (imageOf instrs) =
      instrs.map Instruction.toStr ++ List.replicate (64 - instrs.length) fillerStr := by
  unfold linesOf imageOf
  rw [splitOnChar_imageBody instrs (fun i hi => toStr_noNL i (h i hi)) (64 - instrs.length)]
  rw [← List.append_assoc]
  exact List.dropLast_concat

theorem JsMap.get_set_self (m : JsMap β) (k : Str) (v : β) :
    (m.set k v).get k = Option.some v := by
  obtain ⟨l⟩ := m
  simp only [JsMap.set, JsMap.get]
  induction l with
  | nil => simp [setEntries]
  | cons kv rest ih =>
    by_cases hk : kv.1 = k
    · simp [setEntries, hk]
    · simp only [setEntries, if_neg hk, List.find?_cons]
      have : (kv.1 == k) = false := by simpa using hk
      simp [this, ih]

theorem JsMap.get_delete_self (m : JsMap β) (k : Str) :
    (m.delete k).get k = Option.none := by
  obtain ⟨l⟩ := m
  simp only [JsMap.delete, JsMap.get]
  induction l with
  | nil => simp
  | cons kv rest ih =>
    by_cases hk : kv.1 = k
    · simpa [List.filter_cons, hk] using ih
    · have hne : (kv.1 == k) = false := by simpa using hk
      simp [List.filter_cons, hk, hne, ih]

theorem JsMap.get_delete_ne (m : JsMap β) (k k' : Str) (h : ¬ (k' = k)) :
    (m.delete k).get k' = m.get k' := by
  obtain ⟨l⟩ := m
  simp only [JsMap.delete, JsMap.get]
  induction l with
  | nil => rfl
  | cons kv rest ih =>
    by_cases hk : kv.1 = k
    · have hne : (kv.1 == k') = false := by
        simp only [beq_eq_false_iff_ne, ne_eq]
        intro hc
        exact h (by rw [← hc, hk])
      have hfk : (decide (kv.1 ≠ k)) = false := by simp [hk]
      rw [List.filter_cons, hfk]
      simp only [Bool.false_eq_true, if_false]
      rw [List.find?_cons_of_neg _ (by simp [hne]), ih]
    · have hfk : (decide (kv.1 ≠ k)) = true := by simp [hk]
      rw [List.filter_cons, hfk]
      simp only [if_true]
      by_cases hk' : kv.1 = k'
      · have heq : (kv.1 == k') = true := by simpa using hk'
        rw [List.find?_cons_of_pos _ (by simp [heq]),
          List.find?_cons_of_pos _ (by simp [heq])]
      · have hne : (kv.1 == k') = false := by simpa using hk'
        rw [List.find?_cons_of_neg _ (by simp [hne]),
          List.find?_cons_of_neg _ (by simp [hne]), ih]

theorem Instruction.mk?_ok_of (o : Int) (r : Bool) (d : Int) (cm : Str)
    (hd : d ≤ 127) (ho : o ≤ 15) : Instruction.mk? o r d cm = .ok ⟨o, r, d, cm⟩ := by
  unfold Instruction.mk?
  rw [if_neg (by omega), if_neg (by omega)]

theorem Instruction.mk?_ok_inv (o : Int) (r : Bool) (d : Int) (cm : Str)
    (inst : Instruction) (h : Instruction.mk? o r d cm = .ok inst) :
    inst = ⟨o, r, d, cm⟩ ∧ d ≤ 127 ∧ o ≤ 15 := by
  unfold Instruction.mk? at h
  split at h
  · exact absurd h (by simp)
  · split at h
    · exact absurd h (by simp)
    · simp at h
      refine ⟨h.symm, by omega, by omega⟩

theorem Instruction.mk?_err_data (o : Int) (r : Bool) (d : Int) (cm : Str)
    (hd : 127 < d) : Instruction.mk? o r d cm =
      .error (("Instruction data cannot be more than 7 bits but was ").data ++ intToBin d) := by
  simp [Instruction.mk?, hd]

theorem Instruction.mk?_err_opcode (o : Int) (r : Bool) (d : Int) (cm : Str)
    (hd : d ≤ 127) (ho : 15 < o) : Instruction.mk? o r d cm =
      .error (("Opcode cannot be more than 4 bits but was ").data ++ intToBin o) := by
  have : ¬ (127 < d) := by omega
  simp [Instruction.mk?, this, ho]

theorem encodeOutputs_spec (outs : List OperationOutput) (r1 : Bool) (dv : Option Int)
    (cm : Str) : ∀ instrs, encodeOutputs outs r1 dv cm = .ok instrs →
    instrs.length = outs.length ∧
    ∀ j, (hj : j < instrs.length) → (hj' : j < outs.length) →
      (instrs.get ⟨j, hj⟩).data = (if (outs.get ⟨j, hj'⟩).useData then dv.getD 0 else 0) ∧
      (instrs.get ⟨j, hj⟩).opcode = (outs.get ⟨j, hj'⟩).opcode ∧
      (instrs.get ⟨j, hj⟩).comment = cm := by
  induction outs with
  | nil =>
    intro instrs h
    simp [encodeOutputs] at h
    subst h
    simp
  | cons out rest ih =>
    intro instrs h
    simp only [encodeOutputs, bind, Except.bind] at h
    cases hmk : Instruction.mk? out.opcode (if out.useRegister then r1 else false)
        (if out.useData then dv.getD 0 else 0) cm with
    | error e => rw [hmk] at h; exact absurd h (by simp)
    | ok inst =>
      rw [hmk] at h
      cases henc : encodeOutputs rest r1 dv cm with
      | error e => rw [henc] at h; exact absurd h (by simp)
      | ok more =>
        rw [henc] at h
        simp at h
        subst h
        obtain ⟨hinst, _, _⟩ := Instruction.mk?_ok_inv _ _ _ _ _ hmk
        obtain ⟨hlen, hfields⟩ := ih more henc
        constructor
        · simp [hlen]
        · intro j hj hj'
          cases j with
          | zero => subst hinst; simp
          | succ j =>
            have hj2 : j < more.length := by simpa using hj
            have hj2' : j < rest.length := by simpa using hj'
            simpa using hfields j hj2 hj2'

theorem encodeOutputs_wf (outs : List OperationOutput) (r1 : Bool) (dv : Option Int)
    (cm : Str) (hcm : noNL cm) : ∀ instrs, encodeOutputs outs r1 dv cm = .ok instrs →
    ∀ i ∈ instrs, InstrWF i := by
  induction outs with
  | nil =>
    intro instrs h
    simp [encodeOutputs] at h
    subst h
    simp
  | cons out rest ih =>
    intro instrs h
    simp only [encodeOutputs, bind, Except.bind] at h
    cases hmk : Instruction.mk? out.opcode (if out.useRegister then r1 else false)
        (if out.useData then dv.getD 0 else 0) cm with
    | error e => rw [hmk] at h; exact absurd h (by simp)
    | ok inst =>
      rw [hmk] at h
      cases henc : encodeOutputs rest r1 dv cm with
      | error e => rw [henc] at h; exact absurd h (by simp)
      | ok more =>
        rw [henc] at h
        simp at h
        subst h
        obtain ⟨hinst, hd, ho⟩ := Instruction.mk?_ok_inv _ _ _ _ _ hmk
        intro i hi
        rcases List.mem_cons.1 hi with rfl | hi
        · subst hinst
          exact ⟨hcm, hd, ho⟩
        · exact ih more henc i hi

theorem applyNoDefaultOps_get (ds : List Operation) :
    (ds.map fun d => strUpper d.op).Nodup → ∀ (m : JsMap Operation) (k : Str),
    (applyNoDefaultOps ds m).get k =
      match m.get k with
      | Option.some v =>
        if ds.any (fun d => strUpper d.op == k && v.oid == d.oid) then Option.none
        else Option.some v
      | Option.none => Option.none := by
  induction ds with
  | nil =>
    intro _ m k
    cases hmk : m.get k <;> simp [applyNoDefaultOps, hmk]
  | cons d ds ih =>
    intro hds m k
    have hds' : (ds.map fun d => strUpper d.op).Nodup := (List.nodup_cons.1 hds).2
    have hnotin : strUpper d.op ∉ ds.map fun d => strUpper d.op := (List.nodup_cons.1 hds).1
    have hanyfalse : ∀ v : Operation, strUpper d.op = k →
        (ds.any fun e => strUpper e.op == k && v.oid == e.oid) = false := by
      intro v hk
      rw [List.any_eq_false]
      intro e he
      have hne : ¬ (strUpper e.op = k) := by
        intro hc
        exact hnotin (hk ▸ hc ▸ List.mem_map_of_mem (fun d => strUpper d.op) he)
      simp [hne]
    have hstep : applyNoDefaultOps (d :: ds) m = applyNoDefaultOps ds
        (match m.get (strUpper d.op) with
         | Option.some v => if v.oid = d.oid then m.delete (strUpper d.op) else m
         | Option.none => m) := rfl
    by_cases hk : strUpper d.op = k
    · cases hmk : m.get (strUpper d.op) with
      | none =>
        have hm' : applyNoDefaultOps (d :: ds) m = applyNoDefaultOps ds m := by
          rw [hstep, hmk]
        have hmk2 : m.get k = Option.none := hk ▸ hmk
        rw [hm', ih hds', hmk2]
      | some v =>
        have hmk2 : m.get k = Option.some v := hk ▸ hmk
        by_cases hoid : v.oid = d.oid
        · have hm' : applyNoDefaultOps (d :: ds) m =
              applyNoDefaultOps ds (m.delete (strUpper d.op)) := by
            rw [hstep, hmk]
            simp [hoid]
          have hdel : (m.delete (strUpper d.op)).get k = Option.none := by
            rw [← hk]
            exact JsMap.get_delete_self m (strUpper d.op)
          rw [hm', ih hds', hdel, hmk2]
          have hany : ((d :: ds).any fun e => strUpper e.op == k && v.oid == e.oid) = true := by
            simp [List.any_cons, hk, hoid]
          simp [hany]
        · have hm' : applyNoDefaultOps (d :: ds) m = applyNoDefaultOps ds m := by
            rw [hstep, hmk]
            simp [hoid]
          rw [hm', ih hds', hmk2]
          have h1 := hanyfalse v hk
          have hv : (v.oid == d.oid) = false := by simpa using hoid
          simp [List.any_cons, h1, hv]
    · have hgetk :
          (match m.get (strUpper d.op) with
           | Option.some v => if v.oid = d.oid then m.delete (strUpper d.op) else m
           | Option.none => m).get k = m.get k := by
        cases hmk : m.get (strUpper d.op) with
        | none => rfl
        | some v =>
          show (if v.oid = d.oid then m.delete (strUpper d.op) else m).get k = m.get k
          by_cases hoid : v.oid = d.oid
          · rw [if_pos hoid]
            exact JsMap.get_delete_ne m (strUpper d.op) k (fun hc => hk hc.symm)
          · rw [if_neg hoid]
      rw [hstep, ih hds', hgetk]
      cases m.get k with
      | none => rfl
      | some v =>
        have hd : (strUpper d.op == k) = false := by simpa using hk
        simp [List.any_cons, hd]

theorem exceptMap_ok {α β : Type} (f : α → β) (e : Except Str α) (b : β)
    (h : Except.map f e = .ok b) : ∃ a, e = .ok a ∧ b = f a := by
  cases e with
  | error err => simp [Except.map] at h
  | ok a =>
    refine ⟨a, rfl, ?_⟩
    simpa [Except.map] using h.symm

theorem stripSecret_wf (s : Str) (h : noNL s) :
    noNL (stripSecret s).2 ∧ ∀ c, (stripSecret s).1 = Option.some c → noNL c := by
  unfold stripSecret
  cases indexOfChar s '#' with
  | none =>
    refine ⟨h, ?_⟩
    intro c hc
    simp at hc
  | some ix =>
    refine ⟨noNL_take s h ix, ?_⟩
    intro c hc
    simp at hc
    subst hc
    exact noNL_drop s h (ix + 1)

theorem stripPublic_wf (s : Str) (h : noNL s) :
    noNL (stripPublic s).2 ∧ ∀ c, (stripPublic s).1 = Option.some c → noNL c := by
  unfold stripPublic
  cases indexOfSeq (("//").data) s with
  | none =>
    refine ⟨h, ?_⟩
    intro c hc
    simp at hc
  | some ix =>
    refine ⟨noNL_take s h ix, ?_⟩
    intro c hc
    simp at hc
    subst hc
    exact noNL_drop s h (ix + 2)

theorem classifyItem_label_inv (oid : Nat) (text : Str) (opts : ParseOptions)
    (item : Option Item) (h : classifyItem oid text opts = .ok item) :
    ∀ n, item = Option.some (Item.label n) → n = text.drop 1 := by
  intro n hn
  unfold classifyItem at h
  split at h
  · split at h
    · split at h
      · obtain ⟨o, _, hb⟩ := exceptMap_ok _ _ _ h
        rw [hb] at hn
        simp at hn
      · split at h
        · simp at h
          rw [← h] at hn
          simp at hn
        · simp at h
    · simp at h
      rw [← h] at hn
      simp at hn
  · split at h
    · split at h
      · split at h
        · simp at h
        · simp at h
          rw [← h] at hn
          simp at hn
          rw [List.drop_one]
          exact hn.symm
      · simp at h
        rw [← h] at hn
        simp at hn
    · split at h
      · obtain ⟨st, _, hb⟩ := exceptMap_ok _ _ _ h
        rw [hb] at hn
        simp at hn
      · simp at h
        rw [← h] at hn
        simp at hn

theorem lineParse_wf (oid : Nat) (raw : Str) (opts : ParseOptions) (l : Line)
    (hraw : noNL raw) (h : Line.parse oid raw opts = .ok l) : LineWF l := by
  simp only [Line.parse] at h
  obtain ⟨hs2, _⟩ := stripSecret_wf raw hraw
  obtain ⟨hp2, hp1⟩ := stripPublic_wf _ hs2
  obtain ⟨item, hitem, hl⟩ := exceptMap_ok _ _ _ h
  subst hl
  have htext : noNL (trim (stripPublic (stripSecret raw).2).2) := noNL_trim _ hp2
  refine ⟨htext, ?_, ?_⟩
  · intro c hc
    exact hp1 c hc
  · intro n hn
    have hdrop := classifyItem_label_inv _ _ _ _ hitem n hn
    rw [hdrop]
    exact noNL_drop _ htext 1

theorem parseLines_wf (opts : ParseOptions) :
    ∀ (ix : Nat) (raws : List Str) (ls : List Line),
    (∀ raw ∈ raws, noNL raw) → parseLines opts ix raws = .ok ls →
    ∀ l ∈ ls, LineWF l := by
  intro ix raws
  induction raws generalizing ix with
  | nil =>
    intro ls _ h l hl
    simp [parseLines] at h
    subst h
    simp at hl
  | cons raw rest ih =>
    intro ls hraws h l hl
    unfold parseLines at h
    cases hp : Line.parse (11 + ix) raw opts with
    | error e => rw [hp] at h; simp at h
    | ok l0 =>
      rw [hp] at h
      cases hrest : parseLines opts (ix + 1) rest with
      | error e => rw [hrest] at h; simp at h
      | ok ls0 =>
        rw [hrest] at h
        simp at h
        subst h
        rcases List.mem_cons.1 hl with rfl | hl
        · exact lineParse_wf _ _ _ _ (hraws raw (List.mem_cons_self raw rest)) hp
        · exact ih (ix + 1) ls0 (fun r hr => hraws r (List.mem_cons_of_mem raw hr)) hrest l hl

theorem programParse_wf (content : Str) (opts : ParseOptions) (p : Program)
    (h : Program.parse content opts = .ok p) :
    (∀ l ∈ p.lines, LineWF l) ∧ p.labels = Option.none := by
  unfold Program.parse at h
  obtain ⟨ls, hls, hp⟩ := exceptMap_ok _ _ _ h
  subst hp
  refine ⟨?_, rfl⟩
  intro l hl
  apply parseLines_wf opts 0 _ ls _ hls l hl
  intro raw hraw
  intro c hc
  have := splitOnChar_mem '\n' _ _ hraw c hc
  exact this

theorem labelCommentOf_noNL (labels : Option (JsMap Nat)) (addr : Nat)
    (h : LabelsWF labels) : noNL (labelCommentOf labels addr) := by
  cases labels with
  | none => exact noNL_nil
  | some L =>
    simp only [labelCommentOf]
    suffices H : ∀ (es : List (Str × Nat)), (∀ kv ∈ es, noNL kv.1) →
        ∀ acc : Str, noNL acc → noNL (es.foldl
          (fun acc kv =>
            if addr = kv.2 then
              acc ++ ':' :: (kv.1.map (fun c => if c = ' ' then '_' else c)) ++ [' ']
            else acc) acc) by
      exact H L.entries h [] noNL_nil
    intro es
    induction es with
    | nil =>
      intro _ acc hacc
      exact hacc
    | cons kv rest ih =>
      intro hes acc hacc
      simp only [List.foldl_cons]
      apply ih (fun e he => hes e (List.mem_cons_of_mem kv he))
      by_cases haddr : addr = kv.2
      · rw [if_pos haddr]
        intro c hc
        simp only [List.append_assoc, List.mem_append, List.mem_cons, List.mem_map,
          List.mem_singleton] at hc
        rcases hc with hc | (hc | ⟨a, ha, hfa⟩) | (rfl | hc)
        · exact hacc c hc
        · subst hc; decide
        · rw [← hfa]
          by_cases hsp : a = ' '
          · rw [if_pos hsp]; decide
          · rw [if_neg hsp]
            exact hes kv (List.mem_cons_self kv rest) a ha
        · decide
        · simp at hc
      · rw [if_neg haddr]
        exact hacc

theorem commentOf_noNL (st : ProcState) (line : Line) (hline : LineWF line)
    (hlab : LabelsWF st.labels) : noNL (commentOf st line) := by
  unfold commentOf
  apply noNL_append
  apply noNL_append
  apply noNL_append
  · apply noNL_append
    · cases hcm : line.comment with
      | none => exact noNL_nil
      | some c =>
        apply noNL_append
        · exact hline.2.1 c hcm
        · split
          · exact noNL_nil
          · intro x hx
            simp at hx
            subst hx
            decide
    · decide
  · exact labelCommentOf_noNL st.labels st.instructions.length hlab
  · exact hline.1
  · intro x hx
    simp at hx
    subst hx
    decide

theorem setEntries_mem {β : Type} (k : Str) (v : β) :
    ∀ (l : List (Str × β)) kv, kv ∈ setEntries k v l → kv = (k, v) ∨ kv ∈ l := by
  intro l
  induction l with
  | nil =>
    intro kv hkv
    simp [setEntries] at hkv
    exact Or.inl hkv
  | cons e rest ih =>
    intro kv hkv
    unfold setEntries at hkv
    split at hkv
    · rcases List.mem_cons.1 hkv with rfl | hkv
      · rename_i he
        left
        rw [he]
      · exact Or.inr (List.mem_cons_of_mem e hkv)
    · rcases List.mem_cons.1 hkv with rfl | hkv
      · exact Or.inr (List.mem_cons_self _ _)
      · rcases ih kv hkv with h | h
        · exact Or.inl h
        · exact Or.inr (List.mem_cons_of_mem e h)

theorem processItem_statement_ok (opts : ProcessOptions) (i : Nat) (st : ProcState)
    (line : Line) (item : Statement) (st' : ProcState)
    (hitem : line.item = Option.some (Item.statement item))
    (h : processItem opts i st line = .ok st') :
    ∃ dataVal op newWarnings newInstrs,
      resolveDataVal opts st.labels item = .ok dataVal ∧
      st.ops.get (strUpper item.op) = Option.some op ∧
      (if opts.validateInstructionArgs then
        validateArgsFn op item dataVal st.unreachable i = .ok newWarnings
       else newWarnings = []) ∧
      encodeOutputs op.output (item.reg = Option.some Reg.R1) dataVal
        (commentOf st line) = .ok newInstrs ∧
      st' = { st with
        instructions := st.instructions ++ newInstrs,
        warnings := st.warnings ++ newWarnings,
        unreachable := if op.alwaysBranches then true else st.unreachable } := by
  unfold processItem at h
  rw [hitem] at h
  simp only [bind, Except.bind] at h
  cases hdv : resolveDataVal opts st.labels item with
  | error e => rw [hdv] at h; simp at h
  | ok dv =>
    rw [hdv] at h
    dsimp only [] at h
    cases hop : st.ops.get (strUpper item.op) with
    | none => rw [hop] at h; simp at h
    | some op =>
      rw [hop] at h
      dsimp only [] at h
      by_cases hv : opts.validateInstructionArgs = true
      · rw [if_pos hv] at h
        cases hval : validateArgsFn op item dv st.unreachable i with
        | error e => rw [hval] at h; simp at h
        | ok w =>
          rw [hval] at h
          dsimp only [] at h
          cases henc : encodeOutputs op.output (item.reg = Option.some Reg.R1) dv
              (commentOf st line) with
          | error e => rw [henc] at h; simp at h
          | ok instrs =>
            rw [henc] at h
            dsimp only [] at h
            simp at h
            refine ⟨dv, op, w, instrs, rfl, rfl, by rw [if_pos hv]; exact hval, henc, ?_⟩
            rw [← h]
            cases hab : op.alwaysBranches <;> simp
      · rw [if_neg hv] at h
        cases henc : encodeOutputs op.output (item.reg = Option.some Reg.R1) dv
            (commentOf st line) with
        | error e => rw [henc] at h; simp at h
        | ok instrs =>
          rw [henc] at h
          dsimp only [] at h
          simp at h
          refine ⟨dv, op, [], instrs, rfl, rfl, by rw [if_neg hv], henc, ?_⟩
          rw [← h]
          cases hab : op.alwaysBranches <;> simp

theorem processItem_wf (opts : ProcessOptions) (i : Nat) (st : ProcState) (line : Line)
    (st' : ProcState) (hline : LineWF line) (hst : StWF st)
    (h : processItem opts i st line = .ok st') : StWF st' := by
  cases hitem : line.item with
  | none =>
    unfold processItem at h
    rw [hitem] at h
    simp at h
    rw [← h]
    exact hst
  | some it =>
    cases it with
    | label name =>
      unfold processItem at h
      rw [hitem] at h
      dsimp only [] at h
      by_cases hro : (!opts.resolveLabels) = true
      · rw [if_pos hro] at h
        simp at h
        rw [← h]
        exact ⟨hst.1, hst.2⟩
      · rw [if_neg hro] at h
        cases hlab : st.labels with
        | none =>
          rw [hlab] at h
          dsimp only [] at h
          simp at h
          rw [← h]
          refine ⟨hst.1, ?_⟩
          have h2 := hst.2
          rw [hlab] at h2
          exact h2
        | some L =>
          rw [hlab] at h
          dsimp only [] at h
          by_cases hhas : L.has name = true
          · rw [if_pos hhas] at h
            simp at h
          · rw [if_neg hhas] at h
            simp at h
            rw [← h]
            refine ⟨hst.1, ?_⟩
            dsimp only [LabelsWF]
            intro kv hkv
            rcases setEntries_mem name st.instructions.length L.entries kv hkv with rfl | hkv
            · exact hline.2.2 name hitem
            · have h2 := hst.2
              rw [hlab] at h2
              exact h2 kv hkv
    | statement item =>
      obtain ⟨dv, op, w, instrs, _, _, _, henc, hst'⟩ :=
        processItem_statement_ok opts i st line item st' hitem h
      subst hst'
      refine ⟨?_, hst.2⟩
      intro inst hinst
      rcases List.mem_append.1 hinst with hin | hin
      · exact hst.1 inst hin
      · exact encodeOutputs_wf _ _ _ _ (commentOf_noNL st line hline hst.2) instrs henc inst hin
    | attr a =>
      unfold processItem at h
      rw [hitem] at h
      dsimp only [] at h
      cases hop : a.op with
      | none =>
        rw [hop] at h
        dsimp only [] at h
        by_cases hnd : a.no_default_ops = true
        · rw [if_pos hnd] at h
          injection h with h
          rw [← h]
          exact ⟨hst.1, hst.2⟩
        · rw [if_neg hnd] at h
          injection h with h
          rw [← h]
          exact hst
      | some o =>
        rw [hop] at h
        dsimp only [] at h
        by_cases hnd : a.no_default_ops = true
        · rw [if_pos hnd] at h
          injection h with h
          rw [← h]
          exact ⟨hst.1, hst.2⟩
        · rw [if_neg hnd] at h
          injection h with h
          rw [← h]
          exact ⟨hst.1, hst.2⟩

theorem processLines_wf (opts : ProcessOptions) :
    ∀ (i : Nat) (st : ProcState) (lines : List Line) (st' : ProcState),
    (∀ l ∈ lines, LineWF l) → StWF st →
    processLines opts i st lines = .ok st' → StWF st' := by
  intro i st lines
  induction lines generalizing i st with
  | nil =>
    intro st' _ hst h
    simp [processLines] at h
    rw [← h]
    exact hst
  | cons line rest ih =>
    intro st' hlines hst h
    unfold processLines at h
    cases hpi : processItem opts i st line with
    | error e => rw [hpi] at h; simp at h
    | ok st1 =>
      rw [hpi] at h
      have hst1 : StWF st1 :=
        processItem_wf opts i st line st1 (hlines line (List.mem_cons_self line rest)) hst hpi
      exact ih (i + 1) st1 st' (fun l hl => hlines l (List.mem_cons_of_mem line hl)) hst1 h

theorem resolveLabels_wf (p p' : Program) (hlines : ∀ l ∈ p.lines, LineWF l)
    (hlab : LabelsWF p.labels) (h : Program.resolveLabels p = .ok p') :
    (∀ l ∈ p'.lines, LineWF l) ∧ LabelsWF p'.labels := by
  unfold Program.resolveLabels at h
  split at h
  · simp at h
    rw [← h]
    exact ⟨hlines, hlab⟩
  · obtain ⟨st, hst, hp⟩ := exceptMap_ok _ _ _ h
    have hinit : StWF
        { instructions := [], unreachable := false, labels := Option.some emptyMap,
          ops := p.ops, warnings := [] } := by
      refine ⟨?_, ?_⟩
      · intro i hi
        exact absurd hi (List.not_mem_nil i)
      · intro kv hkv
        simp [emptyMap] at hkv
    have hwf := processLines_wf _ 0 _ p.lines st hlines hinit hst
    subst hp
    exact ⟨hlines, hwf.2⟩

theorem loadDefinedOps_wf (p p' : Program) (hlines : ∀ l ∈ p.lines, LineWF l)
    (hlab : LabelsWF p.labels) (h : Program.loadDefinedOps p = .ok p') :
    (∀ l ∈ p'.lines, LineWF l) ∧ LabelsWF p'.labels := by
  unfold Program.loadDefinedOps at h
  obtain ⟨st, hst, hp⟩ := exceptMap_ok _ _ _ h
  have hinit : StWF
      { instructions := [], unreachable := false, labels := p.labels,
        ops := p.ops, warnings := [] } := by
    refine ⟨?_, hlab⟩
    intro i hi
    exact absurd hi (List.not_mem_nil i)
  have hwf := processLines_wf _ 0 _ p.lines st hlines hinit hst
  subst hp
  exact ⟨hlines, hwf.2⟩

theorem emitInstrs_wf (p : Program) (res : List Instruction × List (Str × Nat) × Program)
    (hlines : ∀ l ∈ p.lines, LineWF l) (hlab : LabelsWF p.labels)
    (h : Program.emitInstrs p = .ok res) : ∀ inst ∈ res.1, InstrWF inst := by
  unfold Program.emitInstrs at h
  split at h
  · simp at h
  · obtain ⟨st, hst, hres⟩ := exceptMap_ok _ _ _ h
    have hinit : StWF
        { instructions := [], unreachable := false, labels := p.labels,
          ops := p.ops, warnings := [] } := by
      refine ⟨?_, hlab⟩
      intro i hi
      exact absurd hi (List.not_mem_nil i)
    have hwf := processLines_wf _ 0 _ p.lines st hlines hinit hst
    subst hres
    exact fun inst hi => hwf.1 inst hi

theorem assembleCore_wf (content : Str) (res : List Instruction × List (Str × Nat) × Program)
    (h : assembleCore content = .ok res) : ∀ inst ∈ res.1, InstrWF inst := by
  unfold assembleCore at h
  simp only [bind, Except.bind] at h
  cases h1 : Program.parse content { parseItemTypes := Option.some { attr := true } } with
  | error e => rw [h1] at h; simp at h
  | ok attrs =>
    rw [h1] at h
    dsimp only [] at h
    cases h2 : (attrs.setOps defaultOps).loadDefinedOps with
    | error e => rw [h2] at h; simp at h
    | ok attrs2 =>
      rw [h2] at h
      dsimp only [] at h
      cases h3 : Program.parse content { supportedOps := Option.some attrs2.ops.values } with
      | error e => rw [h3] at h; simp at h
      | ok prog0 =>
        rw [h3] at h
        dsimp only [] at h
        cases h4 : (prog0.setOps attrs2.ops.values).resolveLabels with
        | error e => rw [h4] at h; simp at h
        | ok prog1 =>
          rw [h4] at h
          dsimp only [] at h
          have hp0 := programParse_wf content _ prog0 h3
          have hsetlines : ∀ l ∈ (prog0.setOps attrs2.ops.values).lines, LineWF l := hp0.1
          have hsetlab : LabelsWF (prog0.setOps attrs2.ops.values).labels := by
            have h5 := hp0.2
            show LabelsWF prog0.labels
            rw [h5]
            trivial
          obtain ⟨hl1, hb1⟩ := resolveLabels_wf _ _ hsetlines hsetlab h4
          exact emitInstrs_wf prog1 res hl1 hb1 h

/-- C3: every attempt to encode an instruction word whose data field
exceeds 127 or whose opcode exceeds 15 fails with the bit-width error
message, a successful construction stores the fields unchanged (no wrap
or truncation), and the concrete `ADD R0 1111 1111` (an 8-bit binary
literal) makes the whole assembly fail with the data bit-width error. -/
theorem c3_bit_width_errors :
    (∀ (o : Int) (r : Bool) (d : Int) (cm : Str), 127 < d →
      Instruction.mk? o r d cm =
        .error (("Instruction data cannot be more than 7 bits but was ").data ++ intToBin d)) ∧
    (∀ (o : Int) (r : Bool) (d : Int) (cm : Str), d ≤ 127 → 15 < o →
      Instruction.mk? o r d cm =
        .error (("Opcode cannot be more than 4 bits but was ").data ++ intToBin o)) ∧
    (∀ (o : Int) (r : Bool) (d : Int) (cm : Str) (inst : Instruction),
      Instruction.mk? o r d cm = .ok inst → inst.opcode = o ∧ inst.data = d) ∧
    (isOkE (assemble c3src) = false ∧
      containsSeq (("more than 7 bits").data) (getErrD (assemble c3src)) = true) := by
  refine ⟨?_, ?_, ?_, ?_⟩
  · intro o r d cm hd
    exact Instruction.mk?_err_data o r d cm hd
  · intro o r d cm hd ho
    exact Instruction.mk?_err_opcode o r d cm hd ho
  · intro o r d cm inst h
    obtain ⟨rfl, _, _⟩ := Instruction.mk?_ok_inv o r d cm inst h
    exact ⟨rfl, rfl⟩
  · constructor <;> decide

/-- C3 witness: the bit-width failure at the concrete overflowing data
value 255 and the concrete failing source file. -/
theorem c3_bit_width_errors_witness :
    Instruction.mk? 4 false 255 [] =
      .error (("Instruction data cannot be more than 7 bits but was ").data ++ intToBin 255) ∧
    isOkE (assemble c3src) = false :=
  ⟨c3_bit_width_errors.1 4 false 255 [] (by decide), c3_bit_width_errors.2.2.2.1⟩

/-- C10: the encoded-instruction constructor checks only upper bounds —
any data value at most 127 and opcode at most 15 is accepted, including
negative values — and the statement `B -5` (decimal-parsed negative
address data) is encoded without a bit-width error, producing the
serialized line `00-5;(Assembly: B -5)`, which is not four lowercase hex
digits. -/
theorem c10_negative_values_accepted :
    (∀ (o : Int) (r : Bool) (d : Int) (cm : Str), d ≤ 127 → o ≤ 15 →
      Instruction.mk? o r d cm = .ok ⟨o, r, d, cm⟩) ∧
    (isOkE (assembleCore c10src) = true ∧
      (getOkD (assembleCore c10src) dfltRes).1.map (fun i => i.data) = [-5] ∧
      (linesOf (getOkD (assemble c10src) [])).head? =
        Option.some (("00-5;(Assembly: B -5)").data) ∧
      isHex4Line (("00-5;(Assembly: B -5)").data) = false) := by
  refine ⟨?_, ?_⟩
  · intro o r d cm hd ho
    exact Instruction.mk?_ok_of o r d cm hd ho
  · refine ⟨?_, ?_, ?_, ?_⟩ <;> decide

/-- C10 witness: the constructor accepting the concrete negative data
value -5, and the concrete negative-address source assembling. -/
theorem c10_negative_values_accepted_witness :
    Instruction.mk? 3 false (-5) [] = .ok ⟨3, false, -5, []⟩ ∧
    isOkE (assembleCore c10src) = true :=
  ⟨c10_negative_values_accepted.1 3 false (-5) [] (by decide) (by decide),
    c10_negative_values_accepted.2.1⟩

/-- C9: the serialization step of emit is total and imposes no 64-word
ceiling — the image always has one line per instruction plus filler up
to 64 lines, so its line count is max(instructionCount, 64), and a
program of more than 64 instruction words yields more than 64 lines with
no filler at all. -/
theorem c9_emit_has_no_size_ceiling (instrs : List Instruction)
    (h : ∀ i ∈ instrs, noNL i.comment) :
    linesOf (imageOf instrs) =
      instrs.map Instruction.toStr ++ List.replicate (64 - instrs.length) fillerStr ∧
    (linesOf (imageOf instrs)).length = max instrs.length 64 ∧
    (64 < instrs.length →
      linesOf (imageOf instrs) = instrs.map Instruction.toStr ∧
      64 < (linesOf (imageOf instrs)).length) := by
  have hl := linesOf_imageOf instrs h
  refine ⟨hl, ?_, ?_⟩
  · rw [hl]
    simp only [List.length_append, List.length_map, List.length_replicate]
    omega
  · intro hgt
    have h64 : 64 - instrs.length = 0 := by omega
    constructor
    · rw [hl, h64]
      simp
    · rw [hl, h64]
      simp only [List.replicate_zero, List.append_nil, List.length_map]
      omega

/-- C9 witness: a 65-instruction image has 65 lines. -/
theorem c9_emit_has_no_size_ceiling_witness :
    64 < (linesOf (imageOf c9instrs)).length :=
  ((c9_emit_has_no_size_ceiling c9instrs (by decide)).2.2 (by decide)).2

/-- C1 counterexample: the 65-line source of 64 `IN R0` statements
followed by `B -5` assembles successfully, yet its image has 65 lines
(not 64) and contains a line that does not match `^[0-9a-f]{4};.*$`. -/
theorem c1_counterexample :
    isOkE (assemble c1src) = true ∧
    (linesOf (getOkD (assemble c1src) [])).length = 65 ∧
    (linesOf (getOkD (assemble c1src) [])).all isHex4Line = false := by
  refine ⟨?_, ?_, ?_⟩ <;> decide

/-- C1 amended: for every source text on which assemble succeeds, the
image is one line per emitted instruction followed by `0000;` filler up
to 64 lines — max(instructionCount, 64) lines in total — and every
instruction line whose opcode and data fields are nonnegative matches
`^[0-9a-f]{4};.*$` (the upper bounds being enforced by the encoder). -/
theorem c1_amended (src : Str) (res : List Instruction × List (Str × Nat) × Program)
    (h : assembleCore src = .ok res) :
    assemble src = .ok (imageOf res.1) ∧
    linesOf (imageOf res.1) =
      res.1.map Instruction.toStr ++ List.replicate (64 - res.1.length) fillerStr ∧
    (linesOf (imageOf res.1)).length = max res.1.length 64 ∧
    (∀ inst ∈ res.1, 0 ≤ inst.opcode → 0 ≤ inst.data →
      isHex4Line (Instruction.toStr inst) = true) := by
  have hwf := assembleCore_wf src res h
  have hnl : ∀ i ∈ res.1, noNL i.comment := fun i hi => (hwf i hi).1
  have hl := linesOf_imageOf res.1 hnl
  refine ⟨?_, hl, ?_, ?_⟩
  · unfold assemble
    rw [h]
    rfl
  · rw [hl]
    simp only [List.length_append, List.length_map, List.length_replicate]
    omega
  · intro inst hi h0 h1
    exact toStr_hex4 inst h0 (hwf inst hi).2.2 h1 (hwf inst hi).2.1

/-- C1 amended witness: the amended line-count law at the concrete
one-statement source `OUT R1`. -/
theorem c1_amended_witness :
    (linesOf (imageOf (getOkD (assembleCore c1wsrc) dfltRes).1)).length =
      max ((getOkD (assembleCore c1wsrc) dfltRes).1.length) 64 := by
  have h : assembleCore c1wsrc = .ok (getOkD (assembleCore c1wsrc) dfltRes) := by decide
  exact (c1_amended c1wsrc _ h).2.2.1

/-- C5: the clear-defaults directive removes from the operation table
exactly those entries still identical (by the modeled object identity)
to an original built-in default instance under that default's uppercased
name, preserving entries already replaced by a redefinition; the
concrete file `@no_default_ops` + `@define CALL reg=never data=address
=> 0` + `:x` + `CALL :x` assembles successfully, while the same file
with a bare `RET` added fails with "Unknown operation". -/
theorem c5_no_default_ops :
    (∀ (m : JsMap Operation) (k : Str),
      (applyNoDefaultOps defaultOps m).get k =
        match m.get k with
        | Option.some v => if isOrigDefaultEntry k v then Option.none else Option.some v
        | Option.none => Option.none) ∧
    isOkE (assemble c5src) = true ∧
    (isOkE (assemble c5srcRET) = false ∧
      containsSeq (("Unknown operation").data) (getErrD (assemble c5srcRET)) = true) := by
  refine ⟨?_, ?_, ?_⟩
  · intro m k
    have hnodup : (defaultOps.map fun d => strUpper d.op).Nodup := by decide
    rw [applyNoDefaultOps_get defaultOps hnodup m k]
    simp only [isOrigDefaultEntry]
  · decide
  · constructor <;> decide

/-- C6 counterexample: processing the directive `@define call
reg=never data=none => 1` on an empty operation table inserts the new
operation under the key "call" exactly as written; the uppercased key
"CALL" is absent afterwards, refuting that the insertion uses the
uppercased name. -/
theorem c6_counterexample :
    isOkE (processItem emitOptions 0 emptySt c6line) = true ∧
    (getOkD (processItem emitOptions 0 emptySt c6line) emptySt).ops.get (("CALL").data) =
      Option.none ∧
    (getOkD (processItem emitOptions 0 emptySt c6line) emptySt).ops.get (("call").data) ≠
      Option.none := by
  refine ⟨?_, ?_, ?_⟩ <;> decide

/-- C6 amended: a redefinition directive inserts or replaces the named
Operation in the table under its name exactly as written, not
uppercased; since statement lookups uppercase the statement name (and
assemble additionally re-keys the collected table by uppercased names
between the directive pre-pass and the later passes), a subsequent
statement in any letter case resolves to the new definition whenever the
defined name is already uppercase. -/
theorem c6_amended (opts : ProcessOptions) (i : Nat) (st : ProcState) (line : Line)
    (a : AttrItem) (o : Operation)
    (hitem : line.item = Option.some (Item.attr a))
    (hnd : a.no_default_ops = false) (hop : a.op = Option.some o) :
    processItem opts i st line = .ok { st with ops := st.ops.set o.op o } ∧
    (strUpper o.op = o.op → ∀ s : Str, strUpper s = o.op →
      (st.ops.set o.op o).get (strUpper s) = Option.some o) := by
  constructor
  · unfold processItem
    rw [hitem]
    dsimp only []
    have hnd' : ¬ (a.no_default_ops = true) := by
      rw [hnd]
      simp
    rw [if_neg hnd', hop]
  · intro hupper s hs
    rw [hs]
    exact JsMap.get_set_self st.ops o.op o

/-- C6 amended witness: the insertion law and the lookup law at the
concrete uppercase-named operation and the lowercase statement
spelling "call". -/
theorem c6_amended_witness :
    processItem emitOptions 0 emptySt c6opLine =
      .ok { emptySt with ops := emptySt.ops.set c6op.op c6op } ∧
    (emptySt.ops.set c6op.op c6op).get (strUpper (("call").data)) = Option.some c6op := by
  have h := c6_amended emitOptions 0 emptySt c6opLine
    { content := [], op := Option.some c6op } c6op rfl rfl rfl
  exact ⟨h.1, h.2 (by decide) (("call").data) (by decide)⟩

theorem validateArgsFn_unreachable_no_warn (op : Operation) (item : Statement)
    (dv : Option Int) (i : Nat) (w : List (Str × Nat))
    (h : validateArgsFn op item dv true i = .ok w) : w = [] := by
  unfold validateArgsFn at h
  split at h
  · simp at h
  · simp at h
  · split at h
    · split at h
      · simp at h
      · split at h
        · rename_i hcond
          exact absurd hcond.2 (by simp)
        · injection h with h
          exact h.symm
    · split at h
      · simp at h
      · injection h with h
        exact h.symm
    · injection h with h
      exact h.symm

theorem validateArgsFn_addr_warn (op : Operation) (item : Statement) (v : Int)
    (i : Nat) (w : List (Str × Nat)) (hdata : op.data = OperationData.address)
    (hjl : item.jumpLabel = Option.none)
    (h : validateArgsFn op item (Option.some v) false i = .ok w) :
    w = [(hardcodedWarning v, i)] := by
  unfold validateArgsFn at h
  split at h
  · simp at h
  · simp at h
  · rw [hdata] at h
    dsimp only [] at h
    rw [if_pos (And.intro (by simp [hjl, jumpLabelTruthy]) rfl)] at h
    injection h with h
    exact h.symm

/-- C7: after a statement whose operation has the always-branches flag
the unreachable flag is set; while the flag is set a statement appends
no warning; a label item clears the flag; a reachable statement with a
literal (non-label) address under data policy `address` appends exactly
the one hardcoded-address warning; and the concrete file `B 5` + `B 6`
produces exactly one warning, for the first line. -/
theorem c7_unreachable_suppression :
    (∀ (i : Nat) (st : ProcState) (line : Line) (item : Statement) (op : Operation)
        (st' : ProcState),
      line.item = Option.some (Item.statement item) →
      st.ops.get (strUpper item.op) = Option.some op →
      op.alwaysBranches = true →
      processItem emitOptions i st line = .ok st' → st'.unreachable = true) ∧
    (∀ (i : Nat) (st : ProcState) (line : Line) (item : Statement) (st' : ProcState),
      line.item = Option.some (Item.statement item) →
      st.unreachable = true →
      processItem emitOptions i st line = .ok st' → st'.warnings = st.warnings) ∧
    (∀ (i : Nat) (st : ProcState) (line : Line) (name : Str),
      line.item = Option.some (Item.label name) →
      processItem emitOptions i st line = .ok { st with unreachable := false }) ∧
    (∀ (i : Nat) (st : ProcState) (line : Line) (item : Statement) (op : Operation)
        (v : Int) (st' : ProcState),
      line.item = Option.some (Item.statement item) →
      st.ops.get (strUpper item.op) = Option.some op →
      op.data = OperationData.address →
      item.jumpLabel = Option.none → item.data = Option.some v →
      st.unreachable = false →
      processItem emitOptions i st line = .ok st' →
      st'.warnings = st.warnings ++ [(hardcodedWarning v, i)]) ∧
    ((getOkD (assembleCore c7src) dfltRes).2.1 = [(hardcodedWarning 5, 0)]) := by
  refine ⟨?_, ?_, ?_, ?_, ?_⟩
  · intro i st line item op st' hitem hop hab h
    obtain ⟨dv, op', w, instrs, hdv, hop', hval, henc, hst'⟩ :=
      processItem_statement_ok emitOptions i st line item st' hitem h
    have hopeq : op' = op := by
      rw [hop] at hop'
      injection hop' with hop'
      exact hop'.symm
    subst hopeq
    rw [hst']
    simp [hab]
  · intro i st line item st' hitem hu h
    obtain ⟨dv, op', w, instrs, hdv, hop', hval, henc, hst'⟩ :=
      processItem_statement_ok emitOptions i st line item st' hitem h
    rw [if_pos (by decide : emitOptions.validateInstructionArgs = true)] at hval
    rw [hu] at hval
    have hw := validateArgsFn_unreachable_no_warn op' item dv i w hval
    rw [hst', hw]
    simp
  · intro i st line name hitem
    unfold processItem
    rw [hitem]
    dsimp only []
    rw [if_pos (by decide : (!emitOptions.resolveLabels) = true)]
  · intro i st line item op v st' hitem hop hdata hjl hd hu h
    obtain ⟨dv, op', w, instrs, hdv, hop', hval, henc, hst'⟩ :=
      processItem_statement_ok emitOptions i st line item st' hitem h
    have hopeq : op' = op := by
      rw [hop] at hop'
      injection hop' with hop'
      exact hop'.symm
    subst hopeq
    have hdvval : dv = Option.some v := by
      unfold resolveDataVal at hdv
      rw [hjl] at hdv
      rw [if_neg (by decide : ¬ (jumpLabelTruthy Option.none = true))] at hdv
      rw [hd] at hdv
      injection hdv with hdv
      exact hdv.symm
    subst hdvval
    rw [if_pos (by decide : emitOptions.validateInstructionArgs = true)] at hval
    rw [hu] at hval
    have hw := validateArgsFn_addr_warn op' item v i w hdata hjl hval
    rw [hst', hw]
  · decide

/-- C7 witness: the flag-setting, warning, and label laws instantiated
at the concrete two-branch file `B 5` + `B 6`. -/
theorem c7_unreachable_suppression_witness :
    processItem emitOptions 0 emptySt c2labelLine = .ok { emptySt with unreachable := false } ∧
    (getOkD (assembleCore c7src) dfltRes).2.1 = [(hardcodedWarning 5, 0)] :=
  ⟨c7_unreachable_suppression.2.2.1 0 emptySt c2labelLine (("x").data) rfl,
    c7_unreachable_suppression.2.2.2.2⟩

/-- C2 counterexample: a jump-label reference written as a bare `:` (the
empty label name) with the empty-named label defined on a later line is
never resolved — the JS truthiness test `if (line.item.jumpLabel)` skips
it.  `B :` followed by `:` fails with "This instruction requires a
target address" instead of assembling with the bound index, and
`IN R0 :` followed by `:` assembles with data 0 while the label map
binds the empty name to 1 — refuting the unrestricted
resolve-as-if-defined-earlier law. -/
theorem c2_counterexample :
    isOkE (assemble c2emptyFwdSrc) = false ∧
    containsSeq (("requires a target address").data)
      (getErrD (assemble c2emptyFwdSrc)) = true ∧
    isOkE (assembleCore c2emptyDataSrc) = true ∧
    (getOkD (assembleCore c2emptyDataSrc) dfltRes).1.map (fun inst => inst.data) = [0] ∧
    resLabelsGet (getOkD (assembleCore c2emptyDataSrc) dfltRes) [] = Option.some 1 := by
  refine ⟨?_, ?_, ?_, ?_, ?_⟩ <;> decide

/-- C2 amended: pass 1 binds a label, wherever it occurs in the file, to
the current emitted-instruction count (the index of the next
instruction); the encoding pass resolves a statement's jump-label
reference, when the label name is nonempty, purely against the finished
label map — the emitted data fields equal the bound index whenever the
output descriptor consumes data — so a nonempty-named reference to a
label defined later in the file resolves exactly as one defined earlier;
a reference with the empty label name (a bare `:` operand) is never
resolved and the statement keeps its parsed data; concretely `B :x`
before `:x` encodes data 1 with the label bound to 1, and the mirrored
file encodes data 0 with the label bound to 0. -/
theorem c2_forward_references :
    (∀ (st : ProcState) (L : JsMap Nat) (name : Str) (i : Nat) (line : Line),
      line.item = Option.some (Item.label name) → st.labels = Option.some L →
      L.has name = false →
      processItem resolveOptions i st line =
        .ok { st with
              unreachable := false,
              labels := Option.some (L.set name st.instructions.length) }) ∧
    (∀ (st : ProcState) (L : JsMap Nat) (i : Nat) (line : Line) (item : Statement)
        (l : Str) (a : Nat) (op : Operation) (st' : ProcState),
      st.labels = Option.some L →
      line.item = Option.some (Item.statement item) →
      item.jumpLabel = Option.some l → l ≠ [] → L.get l = Option.some a →
      st.ops.get (strUpper item.op) = Option.some op →
      processItem emitOptions i st line = .ok st' →
      ∃ instrs, st'.instructions = st.instructions ++ instrs ∧
        instrs.length = op.output.length ∧
        ∀ j, (hj : j < instrs.length) → (hj' : j < op.output.length) →
          (instrs.get ⟨j, hj⟩).data =
            (if (op.output.get ⟨j, hj'⟩).useData then (a : Int) else 0)) ∧
    (∀ (opts : ProcessOptions) (labels : Option (JsMap Nat)) (item : Statement),
      item.jumpLabel = Option.some [] →
      resolveDataVal opts labels item = Except.ok item.data) ∧
    ((getOkD (assembleCore c2fwdSrc) dfltRes).1.map (fun inst => inst.data) = [1] ∧
      resLabelsGet (getOkD (assembleCore c2fwdSrc) dfltRes) (("x").data) = Option.some 1 ∧
      (getOkD (assembleCore c2bwdSrc) dfltRes).1.map (fun inst => inst.data) = [0] ∧
      resLabelsGet (getOkD (assembleCore c2bwdSrc) dfltRes) (("x").data) = Option.some 0) := by
  refine ⟨?_, ?_, ?_, ?_⟩
  · intro st L name i line hitem hlab hhas
    unfold processItem
    rw [hitem]
    dsimp only []
    rw [if_neg (by decide : ¬ ((!resolveOptions.resolveLabels) = true))]
    rw [hlab]
    dsimp only []
    rw [if_neg (by rw [hhas]; simp : ¬ (L.has name = true))]
  · intro st L i line item l a op st' hlab hitem hjl hl hget hop h
    obtain ⟨dv, op', w, instrs, hdv, hop', hval, henc, hst'⟩ :=
      processItem_statement_ok emitOptions i st line item st' hitem h
    have hopeq : op' = op := by
      rw [hop] at hop'
      injection hop' with hop'
      exact hop'.symm
    subst hopeq
    have htr : jumpLabelTruthy item.jumpLabel = true := by
      rw [hjl]
      cases l with
      | nil => exact absurd rfl hl
      | cons c cs => rfl
    have hdvval : dv = Option.some (a : Int) := by
      unfold resolveDataVal at hdv
      rw [if_pos htr] at hdv
      rw [hjl] at hdv
      dsimp only [Option.getD] at hdv
      rw [hlab] at hdv
      dsimp only [] at hdv
      rw [hget] at hdv
      injection hdv with hdv
      exact hdv.symm
    subst hdvval
    obtain ⟨hlen, hfields⟩ := encodeOutputs_spec op'.output
      (item.reg = Option.some Reg.R1) (Option.some (a : Int)) (commentOf st line) instrs henc
    refine ⟨instrs, by rw [hst'], hlen, ?_⟩
    intro j hj hj'
    have := (hfields j hj hj').1
    simpa using this
  · intro opts labels item hjl
    unfold resolveDataVal
    rw [hjl]
    rw [if_neg (by decide : ¬ (jumpLabelTruthy (Option.some []) = true))]
  · refine ⟨?_, ?_, ?_, ?_⟩ <;> decide

/-- C2 witness: the pass-1 binding law at a concrete label line, the
never-resolved law at a concrete empty-labeled statement, plus the
concrete forward-reference resolution. -/
theorem c2_forward_references_witness :
    processItem resolveOptions 0 stLab0 c2labelLine =
      .ok { stLab0 with
            unreachable := false,
            labels := Option.some (emptyMap.set (("x").data) 0) } ∧
    resolveDataVal emitOptions Option.none c2emptyStmt = Except.ok c2emptyStmt.data ∧
    (getOkD (assembleCore c2fwdSrc) dfltRes).1.map (fun inst => inst.data) = [1] :=
  ⟨c2_forward_references.1 stLab0 emptyMap (("x").data) 0 c2labelLine rfl rfl (by decide),
    c2_forward_references.2.2.1 emitOptions Option.none c2emptyStmt rfl,
    c2_forward_references.2.2.2.1⟩

/-- C4 counterexample: `IN R0 101` parses with the numeric value 101 for
the data policy `none` operation IN, yet assembly succeeds (and even
encodes the value) — the validation performs no check at all for data
policy `none`, rather than requiring the absence of a numeric value. -/
theorem c4_counterexample :
    parseStatement c4src { supportedOps := Option.some defaultOps } =
      .ok { op := ("IN").data, reg := Option.some Reg.R0, data := Option.some 101 } ∧
    isOkE (assemble c4src) = true ∧
    (getOkD (assembleCore c4src) dfltRes).1.map (fun inst => inst.data) = [101] := by
  refine ⟨?_, ?_, ?_⟩ <;> decide

/-- C4 amended: the encoding-pass validation enforces the register
policy (`always` fails without a register token, `never` fails with one,
`optional` accepts either) and the data policy: `address` requires a
resolved numeric value and, for a literal address in reachable code,
emits the warning "branching to hard coded address N" instead of an
error; `binary` requires a numeric value; and `none` performs no check —
a present numeric value is accepted. -/
theorem c4_amended (op : Operation) (item : Statement) (dv : Option Int)
    (u : Bool) (i : Nat) :
    (op.reg = OperationReg.always → item.reg = Option.none →
      validateArgsFn op item dv u i =
        .error (("Must specify register using R0 or R1").data)) ∧
    (∀ r, op.reg = OperationReg.never → item.reg = Option.some r →
      validateArgsFn op item dv u i =
        .error (("Cannot specify a register for this operation, remove \"").data ++
          (if r = Reg.R1 then ("R1").data else ("R0").data) ++ ("\"").data)) ∧
    (regPolicyOk op item = true →
      ((op.data = OperationData.address → dv = Option.none →
        validateArgsFn op item dv u i =
          .error (("This instruction requires a target address").data)) ∧
       (∀ v, op.data = OperationData.address → dv = Option.some v →
        validateArgsFn op item dv u i =
          .ok (if jumpLabelTruthy item.jumpLabel = false ∧ u = false
               then [(hardcodedWarning v, i)] else [])) ∧
       (op.data = OperationData.binary → dv = Option.none →
        validateArgsFn op item dv u i =
          .error (("This instruction requires a binary value").data)) ∧
       (∀ v, op.data = OperationData.binary → dv = Option.some v →
        validateArgsFn op item dv u i = .ok []) ∧
       (op.data = OperationData.none → validateArgsFn op item dv u i = .ok []))) := by
  have hred : regPolicyOk op item = true →
      validateArgsFn op item dv u i =
        (match op.data with
         | OperationData.address =>
           match dv with
           | Option.none =>
             Except.error (("This instruction requires a target address").data)
           | Option.some v =>
             if jumpLabelTruthy item.jumpLabel = false ∧ u = false then
               Except.ok [(hardcodedWarning v, i)]
             else Except.ok []
         | OperationData.binary =>
           match dv with
           | Option.none =>
             Except.error (("This instruction requires a binary value").data)
           | Option.some _ => Except.ok []
         | OperationData.none => Except.ok []) := by
    intro hro
    unfold regPolicyOk at hro
    cases hreg : op.reg with
    | always =>
      rw [hreg] at hro
      dsimp only [] at hro
      cases hir : item.reg with
      | none =>
        rw [hir] at hro
        simp at hro
      | some r =>
        unfold validateArgsFn
        rw [hreg, hir]
    | never =>
      rw [hreg] at hro
      dsimp only [] at hro
      cases hir : item.reg with
      | some r =>
        rw [hir] at hro
        simp at hro
      | none =>
        unfold validateArgsFn
        rw [hreg, hir]
    | optional =>
      cases hir : item.reg with
      | none =>
        unfold validateArgsFn
        rw [hreg, hir]
      | some r =>
        unfold validateArgsFn
        rw [hreg, hir]
  refine ⟨?_, ?_, ?_⟩
  · intro hreg hir
    unfold validateArgsFn
    rw [hreg, hir]
  · intro r hreg hir
    unfold validateArgsFn
    rw [hreg, hir]
  · intro hro
    refine ⟨?_, ?_, ?_, ?_, ?_⟩
    · intro hdata hdv
      rw [hred hro, hdata, hdv]
    · intro v hdata hdv
      rw [hred hro, hdata, hdv]
      dsimp only []
      by_cases hc : jumpLabelTruthy item.jumpLabel = false ∧ u = false
      · rw [if_pos hc, if_pos hc]
      · rw [if_neg hc, if_neg hc]
    · intro hdata hdv
      rw [hred hro, hdata, hdv]
    · intro v hdata hdv
      rw [hred hro, hdata, hdv]
    · intro hdata
      rw [hred hro, hdata]

/-- C4 amended witness: policy `none` accepting a concrete present
numeric value, and the concrete file succeeding. -/
theorem c4_amended_witness :
    validateArgsFn c4op c4stmt (Option.some 101) false 0 = .ok [] ∧
    isOkE (assemble c4src) = true := by
  refine ⟨?_, by decide⟩
  exact ((c4_amended c4op c4stmt (Option.some 101) false 0).2.2 (by decide)).2.2.2.2 (by decide)

/-- C8 counterexample: the specification example assembles to 4 encoded
instructions followed by 60 filler lines, not 5 instructions and 59
filler lines as claimed. -/
theorem c8_counterexample :
    ((getOkD (assembleCore c8src) dfltRes).1.length = 4 ∧
      ¬ ((getOkD (assembleCore c8src) dfltRes).1.length = 5)) ∧
    ((linesOf (getOkD (assemble c8src) [])).count (("0000;").data) = 60 ∧
      ¬ ((linesOf (getOkD (assemble c8src) [])).count (("0000;").data) = 59)) := by
  refine ⟨⟨?_, ?_⟩, ?_, ?_⟩ <;> decide

/-- C8 amended: the example source assembles successfully to the four
instructions LD, SUB, BZ, B (the trailing label emits nothing), followed
by 60 filler lines `0000;` for a 64-line image, with the label Finished
bound to instruction index 4. -/
theorem c8_amended :
    isOkE (assembleCore c8src) = true ∧
    (getOkD (assembleCore c8src) dfltRes).1.map (fun inst => inst.opcode) = [6, 5, 2, 3] ∧
    (linesOf (getOkD (assemble c8src) [])).count (("0000;").data) = 60 ∧
    (linesOf (getOkD (assemble c8src) [])).length = 64 ∧
    resLabelsGet (getOkD (assembleCore c8src) dfltRes) (("Finished").data) = Option.some 4 := by
  refine ⟨?_, ?_, ?_, ?_, ?_⟩ <;> decide
